import Mathlib

/-!
Verification of the CPPON shared-memory object layer (SCppObj / LocalCppObj).

This file gives a shallow embedding of the schema compiler, the typed
accessor layer, the bulk document bridge, the sync functions, the header
initializer/validator and the local-mirror change detector of the CPPON
repository, and proves or refutes the frozen specification claims about
them.

Modelling conventions:
* machine integers are `Nat`/`Int` with explicit `% 2^w` where the C code
  casts or overflows;
* C `double` values are modelled as `ℚ` (the code only assigns and
  compares them in the properties considered here);
* byte strings (names, paths, stored C strings) are `List ℕ` of byte
  values, so that C-string idioms (NUL termination, lexicographic byte
  comparison) can be modelled exactly;
* the shared payload is a store from byte offsets to slot values plus a
  store from timestamp offsets to 64-bit times; semaphore operations do
  not change memory and are dropped.
-/

namespace CPPON

/-- Byte strings: schema keys, path segments and stored C strings. -/
abbrev Name := List ℕ

/-- The runtime type tags of `STRUCT_LISTS` (SL_TYPE_xxx). -/
inductive SLType where
  | dbl | int64 | int32 | int16 | int8 | boolT | chrT | unitT | arrT
deriving DecidableEq

/-- Value stored in one payload slot (integer slots keep the raw stored
bit pattern of the node's width; doubles are exact rationals; FixedStr
slots keep the logical C string, i.e. the bytes before the terminator). -/
inductive MVal where
  | ival (n : ℕ)
  | dval (q : ℚ)
  | sval (bs : Name)
deriving DecidableEq

/-- Shared payload: data slots keyed by `offset`, 64-bit timestamp slots
keyed by `time` offset. -/
structure Mem where
  data : ℕ → MVal
  times : ℕ → ℕ

/-- Write a data slot. -/
def Mem.setData (m : Mem) (off : ℕ) (v : MVal) : Mem :=
  ⟨fun o => if o = off then v else m.data o, m.times⟩

/-- Write a timestamp slot. -/
def Mem.setTime (m : Mem) (off : ℕ) (t : ℕ) : Mem :=
  ⟨m.data, fun o => if o = off then t else m.times o⟩

/-- Runtime node descriptor, mirroring the fields of `STRUCT_LISTS` that
the embedded operations use: `name`, `type`, data `offset`, `size`,
timestamp offset `time`, the name-lookup pairs (search key, full name)
stored in `names`, and the child list `subs`. -/
inductive SNode where
  | mk : Name → SLType → ℕ → ℕ → ℕ → List (Name × Name) → List SNode → SNode

def SNode.name : SNode → Name
  | .mk n _ _ _ _ _ _ => n

def SNode.typ : SNode → SLType
  | .mk _ t _ _ _ _ _ => t

def SNode.offset : SNode → ℕ
  | .mk _ _ o _ _ _ _ => o

def SNode.size : SNode → ℕ
  | .mk _ _ _ s _ _ _ => s

def SNode.time : SNode → ℕ
  | .mk _ _ _ _ t _ _ => t

def SNode.pairs : SNode → List (Name × Name)
  | .mk _ _ _ _ _ ps _ => ps

def SNode.subs : SNode → List SNode
  | .mk _ _ _ _ _ _ ss => ss

/-- Interpret a stored `w`-bit pattern (`n < 2^w`) as a two's-complement
signed integer. -/
def toSigned (w n : ℕ) : ℤ :=
  if n < 2 ^ (w - 1) then (n : ℤ) else (n : ℤ) - 2 ^ w

/-- Sign-extend a stored `w`-bit pattern to a `t`-bit word, as the C
casts `(uint t)(int w)x` do. -/
def signExtTo (t w n : ℕ) : ℕ :=
  if n < 2 ^ (w - 1) then n % 2 ^ t else (n + (2 ^ t - 2 ^ w)) % 2 ^ t

/-- Read a data slot as a raw integer pattern (non-integer slots read as
zero; this situation never arises on a well-typed payload). -/
def Mem.readI (m : Mem) (off : ℕ) : ℕ :=
  match m.data off with
  | .ival n => n
  | _ => 0

/-- Read a data slot as a double. -/
def Mem.readD (m : Mem) (off : ℕ) : ℚ :=
  match m.data off with
  | .dval q => q
  | _ => 0

/-- Read a data slot as a C string. -/
def Mem.readS (m : Mem) (off : ℕ) : Name :=
  match m.data off with
  | .sval s => s
  | _ => []

/-- Uppercase hex digit bytes of a number, most significant first
(models the `%X` conversions of the C formatting calls). -/
def hexBytes (n : ℕ) : Name :=
  if n = 0 then [48] else (Nat.digits 16 n).reverse.map
    (fun d => if d < 10 then 48 + d else 55 + d)

/-- Little-endian decimal digits of `n`, computed with explicit fuel so
that the definition is structurally recursive (and hence reducible by
the kernel on concrete arguments). -/
def decDigits : ℕ → ℕ → List ℕ
  | 0, _ => []
  | _ + 1, 0 => []
  | f + 1, n + 1 => ((n + 1) % 10) :: decDigits f ((n + 1) / 10)

/-- Decimal digit bytes of a number, most significant first (models
`std::to_string` and `%d`/`%u` conversions). -/
def decBytes (n : ℕ) : Name :=
  if n = 0 then [48] else (decDigits n n).reverse.map (fun d => 48 + d)



/-! ### Models of the consumed libc string conversions

The accessor layer calls `strtol`/`strtoll`/`strtod`, `snprintf` with
fixed formats, and `strcasecmp` against "True".  These are external
functions; they are modelled here following their documented behaviour
(base auto-detection for the integer parsers, six fractional digits for
`%lf`).  None of the proved claims depends on the details of these
models; they only keep the embedded definitions total and executable. -/

/-- Value of a digit byte in the given base, if it is one. -/
def digitVal (base b : ℕ) : Option ℕ :=
  let v : Option ℕ :=
    if 48 ≤ b ∧ b ≤ 57 then some (b - 48)
    else if 65 ≤ b ∧ b ≤ 70 then some (b - 55)
    else if 97 ≤ b ∧ b ≤ 102 then some (b - 87)
    else none
  match v with
  | some d => if d < base then some d else none
  | none => none

/-- Accumulate leading digits of `base` (stops at the first non-digit). -/
def parseDigits (base : ℕ) : Name → ℕ → ℕ
  | [], acc => acc
  | b :: t, acc =>
    match digitVal base b with
    | some d => parseDigits base t (acc * base + d)
    | none => acc

/-- Model of `strtol`/`strtoll` with base 0: optional leading spaces and
sign, then `0x` hex, leading-`0` octal, or decimal digits. -/
def strtolM : Name → ℤ
  | 32 :: t => strtolM t
  | 9 :: t => strtolM t
  | 45 :: t => - strtolPos t
  | 43 :: t => strtolPos t
  | s => strtolPos s
where
  strtolPos : Name → ℤ
    | 48 :: 120 :: t => (parseDigits 16 t 0 : ℤ)
    | 48 :: 88 :: t => (parseDigits 16 t 0 : ℤ)
    | 48 :: t => (parseDigits 8 t 0 : ℤ)
    | s => (parseDigits 10 s 0 : ℤ)

/-- Fraction value of leading decimal digit bytes (for `strtod`). -/
def parseFrac : Name → ℚ
  | [] => 0
  | b :: t =>
    match digitVal 10 b with
    | some d => (d + parseFrac t) / 10
    | none => 0

/-- Leading decimal digit bytes of a string. -/
def takeDigits : Name → Name
  | [] => []
  | b :: t => if 48 ≤ b ∧ b ≤ 57 then b :: takeDigits t else []

/-- Bytes remaining after the leading decimal digits. -/
def dropDigits : Name → Name
  | [] => []
  | b :: t => if 48 ≤ b ∧ b ≤ 57 then dropDigits t else b :: t

/-- Model of `strtod`: optional sign, decimal digits, optional point and
fraction digits (exponents are not modelled; no claim depends on this). -/
def strtodM : Name → ℚ
  | 32 :: t => strtodM t
  | 9 :: t => strtodM t
  | 45 :: t => - strtodPos t
  | 43 :: t => strtodPos t
  | s => strtodPos s
where
  strtodPos (s : Name) : ℚ :=
    let ip : ℚ := (parseDigits 10 (takeDigits s) 0 : ℕ)
    match dropDigits s with
    | 46 :: t => ip + parseFrac (takeDigits t)
    | _ => ip

/-- Lowercase a letter byte. -/
def lowByte (b : ℕ) : ℕ := if 65 ≤ b ∧ b ≤ 90 then b + 32 else b

/-- Model of `0 == strcasecmp(s, "True")`. -/
def eqTrueCI (s : Name) : Bool := s.map lowByte = [116, 114, 117, 101]

/-- C `round`: to nearest, ties away from zero. -/
def roundC (q : ℚ) : ℤ := if 0 ≤ q then ⌊q + 1 / 2⌋ else -⌊-q + 1 / 2⌋

/-- Truncation toward zero, as C float-to-integer casts do. -/
def truncQ (q : ℚ) : ℤ := q.num / (q.den : ℤ)

/-- Hex rendering padded to `w` digits (models `"0x%.wX"` formats). -/
def hexPad (w n : ℕ) : Name :=
  let h := hexBytes n
  [48, 120] ++ List.replicate (w - h.length) 48 ++ h

/-- Bytes of "True" / "False". -/
def trueBytes : Name := [84, 114, 117, 101]

/-- Bytes of "False". -/
def falseBytes : Name := [70, 97, 108, 115, 101]

/-- Model of `snprintf("%lf", d)`: sign, integer part, point and six
fraction digits (rounded to nearest, as the C conversion does). -/
def lfBytes (q : ℚ) : Name :=
  let r : ℤ := roundC (q * 1000000)
  let sgn : Name := if r < 0 then [45] else []
  let a : ℕ := r.natAbs
  sgn ++ decBytes (a / 1000000) ++ [46] ++
    (let f := decBytes (a % 1000000)
     List.replicate (6 - f.length) 48 ++ f)

/-! ### Typed accessor layer (SCppObj.cpp)

Each update coerces its argument into the node's storage class, writes
the data slot, and then stamps the node's timestamp slot; each value
read coerces the stored value to the requested type.  The `protect`
parameter only acquires/releases a semaphore and never changes memory,
so it is dropped from the embedding. -/

/-- Modelled from the spec: `setUpdateTime(STRUCT_LISTS*, uint64_t)` is
declared inline in the missing header SCppObj.hpp; per the timestamp
contract it stamps the node's `time_offset` slot with the current
monotonic milliseconds, which the embedding passes in as `now`. -/
def setUpdateTimeM (lst : SNode) (now : ℕ) (m : Mem) : Mem :=
  m.setTime lst.time now

/-- SCppObj::updateInt (SCppObj.cpp:2247).  `val` stands for the C
`uint32_t` parameter, so it is reduced mod `2^32` on entry. -/
def updateInt (lst : SNode) (val : ℕ) (now : ℕ) (m : Mem) : Bool × Mem :=
  let v : ℕ := val % 2 ^ 32
  let step : Bool × Mem :=
    match lst.typ with
    | .chrT => (true, m.setData lst.offset
        (.sval (([48, 120] ++ hexBytes v).take (lst.size - 1 - 1))))
    | .dbl => (true, m.setData lst.offset (.dval (v : ℚ)))
    | .int64 => (true, m.setData lst.offset (.ival v))
    | .int32 => (true, m.setData lst.offset (.ival v))
    | .int16 => (true, m.setData lst.offset (.ival (v % 2 ^ 16)))
    | .int8 => (true, m.setData lst.offset (.ival (v % 2 ^ 8)))
    | .boolT => (true, m.setData lst.offset (.ival (if v ≠ 0 then 0xFF else 0)))
    | _ => (false, m)
  (step.1, setUpdateTimeM lst now step.2)

/-- SCppObj::updateLong (SCppObj.cpp:2184).  `val` stands for the C
`uint64_t` parameter. -/
def updateLong (lst : SNode) (val : ℕ) (now : ℕ) (m : Mem) : Bool × Mem :=
  let v : ℕ := val % 2 ^ 64
  let step : Bool × Mem :=
    match lst.typ with
    | .chrT => (true, m.setData lst.offset
        (.sval (([48, 120] ++ hexBytes v).take (lst.size - 1 - 1))))
    | .dbl => (true, m.setData lst.offset (.dval (v : ℚ)))
    | .int64 => (true, m.setData lst.offset (.ival v))
    | .int32 => (true, m.setData lst.offset (.ival (v % 2 ^ 32)))
    | .int16 => (true, m.setData lst.offset (.ival (v % 2 ^ 16)))
    | .int8 => (true, m.setData lst.offset (.ival (v % 2 ^ 8)))
    | .boolT => (true, m.setData lst.offset (.ival (if v ≠ 0 then 0xFF else 0)))
    | _ => (false, m)
  (step.1, setUpdateTimeM lst now step.2)

/-- SCppObj::updateDouble (SCppObj.cpp:2126). -/
def updateDouble (lst : SNode) (val : ℚ) (now : ℕ) (m : Mem) : Bool × Mem :=
  let step : Bool × Mem :=
    match lst.typ with
    | .chrT => (true, m.setData lst.offset
        (.sval ((lfBytes val).take (lst.size - 1 - 1))))
    | .dbl => (true, m.setData lst.offset (.dval val))
    | .int64 => (true, m.setData lst.offset (.ival ((roundC val % 2 ^ 64).toNat)))
    | .int32 => (true, m.setData lst.offset (.ival ((roundC val % 2 ^ 32).toNat)))
    | .int16 => (true, m.setData lst.offset (.ival ((roundC val % 2 ^ 16).toNat)))
    | .int8 => (true, m.setData lst.offset (.ival ((roundC val % 2 ^ 8).toNat)))
    | .boolT => (true, m.setData lst.offset (.ival (if val ≠ 0 then 0xFF else 0)))
    | _ => (false, m)
  (step.1, setUpdateTimeM lst now step.2)

/-- SCppObj::updateBoolean (SCppObj.cpp:2307).  Note the SL_TYPE_BOOL
branch stores the C `bool` value itself (1 or 0), not 0xFF. -/
def updateBoolean (lst : SNode) (val : Bool) (now : ℕ) (m : Mem) : Bool × Mem :=
  let step : Bool × Mem :=
    match lst.typ with
    | .chrT => (true, m.setData lst.offset
        (.sval ((if val then trueBytes else falseBytes).take (lst.size - 1 - 1))))
    | .dbl => (true, m.setData lst.offset (.dval (if val then 1 else 0)))
    | .int64 => (true, m.setData lst.offset (.ival (if val then 1 else 0)))
    | .int32 => (true, m.setData lst.offset (.ival (if val then 1 else 0)))
    | .int16 => (true, m.setData lst.offset (.ival (if val then 1 else 0)))
    | .int8 => (true, m.setData lst.offset (.ival (if val then 1 else 0)))
    | .boolT => (true, m.setData lst.offset (.ival (if val then 1 else 0)))
    | _ => (false, m)
  (step.1, setUpdateTimeM lst now step.2)

/-- SCppObj::updateString (SCppObj.cpp:2018).  The SL_TYPE_CHAR branch
NUL-terminates at `size-1` and `strncpy`s at most `size-1` bytes, so the
stored logical string is the first `size-1` bytes of the argument. -/
def updateString (lst : SNode) (s : Name) (now : ℕ) (m : Mem) : Bool × Mem :=
  let step : Bool × Mem :=
    match lst.typ with
    | .chrT => (true, m.setData lst.offset (.sval (s.take (lst.size - 1))))
    | .dbl => (true, m.setData lst.offset (.dval (strtodM s)))
    | .int64 => (true, m.setData lst.offset (.ival ((strtolM s % 2 ^ 64).toNat)))
    | .int32 => (true, m.setData lst.offset (.ival ((strtolM s % 2 ^ 32).toNat)))
    | .int16 => (true, m.setData lst.offset (.ival ((strtolM s % 2 ^ 16).toNat)))
    | .int8 => (true, m.setData lst.offset (.ival ((strtolM s % 2 ^ 8).toNat)))
    | .boolT => (true, m.setData lst.offset (.ival (if eqTrueCI s then 0xFF else 0)))
    | _ => (false, m)
  (step.1, setUpdateTimeM lst now step.2)

/-- SCppObj::intValue (SCppObj.cpp:1498): result is the C `uint32_t`
return value, the flag is the `valid` out-parameter. -/
def intValue (lst : SNode) (m : Mem) : ℕ × Bool :=
  match lst.typ with
  | .chrT => (((strtolM (m.readS lst.offset)) % 2 ^ 32).toNat, true)
  | .dbl => (((truncQ (m.readD lst.offset)) % 2 ^ 32).toNat, true)
  | .int64 => (m.readI lst.offset % 2 ^ 32, true)
  | .int32 => (m.readI lst.offset, true)
  | .int16 => (signExtTo 32 16 (m.readI lst.offset), true)
  | .int8 => (signExtTo 32 8 (m.readI lst.offset), true)
  | .boolT => (if m.readI lst.offset ≠ 0 then 1 else 0, true)
  | _ => (0, false)

/-- SCppObj::longValue (SCppObj.cpp:1426): note the source has no
SL_TYPE_INT16 case, so an I16 node reads as invalid here. -/
def longValue (lst : SNode) (m : Mem) : ℕ × Bool :=
  match lst.typ with
  | .chrT => (((strtolM (m.readS lst.offset)) % 2 ^ 64).toNat, true)
  | .dbl => (((truncQ (m.readD lst.offset)) % 2 ^ 64).toNat, true)
  | .int64 => (m.readI lst.offset, true)
  | .int32 => (signExtTo 64 32 (m.readI lst.offset), true)
  | .int8 => (signExtTo 64 8 (m.readI lst.offset), true)
  | .boolT => (if m.readI lst.offset ≠ 0 then 1 else 0, true)
  | _ => (0, false)

/-- SCppObj::doubleValue (SCppObj.cpp:1356): the source also has no
SL_TYPE_INT16 case here. -/
def doubleValue (lst : SNode) (m : Mem) : ℚ × Bool :=
  match lst.typ with
  | .chrT => (strtodM (m.readS lst.offset), true)
  | .dbl => (m.readD lst.offset, true)
  | .int64 => ((toSigned 64 (m.readI lst.offset) : ℚ), true)
  | .int32 => ((toSigned 32 (m.readI lst.offset) : ℚ), true)
  | .int8 => ((toSigned 8 (m.readI lst.offset) : ℚ), true)
  | .boolT => (if m.readI lst.offset ≠ 0 then 1 else 0, true)
  | _ => (0, false)

/-- SCppObj::boolValue (SCppObj.cpp:1571). -/
def boolValue (lst : SNode) (m : Mem) : Bool × Bool :=
  match lst.typ with
  | .chrT => (eqTrueCI (m.readS lst.offset), true)
  | .dbl => (m.readD lst.offset ≠ 0, true)
  | .int64 => (m.readI lst.offset ≠ 0, true)
  | .int32 => (m.readI lst.offset ≠ 0, true)
  | .int8 => (m.readI lst.offset ≠ 0, true)
  | .boolT => (m.readI lst.offset ≠ 0, true)
  | _ => (false, false)

/-- SCppObj::readString (SCppObj.cpp:1741), the std::string overload;
the SL_TYPE_CHAR branch returns the stored C string.  Numeric branches
use the no-`precision` formats (no claim involves `precision`). -/
def readStringV (lst : SNode) (m : Mem) : Name :=
  match lst.typ with
  | .chrT => m.readS lst.offset
  | .dbl => lfBytes (m.readD lst.offset)
  | .int64 => hexPad 12 (m.readI lst.offset)
  | .int32 => hexPad 8 (m.readI lst.offset)
  | .int16 => hexPad 4 (m.readI lst.offset)
  | .int8 => hexPad 2 (m.readI lst.offset)
  | .boolT => if m.readI lst.offset ≠ 0 then trueBytes else falseBytes
  | _ => []

/-! ### Helper lemmas about the store -/

theorem Mem.readI_setData_self (m : Mem) (off : ℕ) (n : ℕ) :
    (m.setData off (.ival n)).readI off = n := by
  simp [Mem.setData, Mem.readI]

theorem Mem.readD_setData_self (m : Mem) (off : ℕ) (q : ℚ) :
    (m.setData off (.dval q)).readD off = q := by
  simp [Mem.setData, Mem.readD]

theorem Mem.readS_setData_self (m : Mem) (off : ℕ) (s : Name) :
    (m.setData off (.sval s)).readS off = s := by
  simp [Mem.setData, Mem.readS]

theorem Mem.readI_setTime (m : Mem) (t v off : ℕ) :
    (m.setTime t v).readI off = m.readI off := by
  simp [Mem.setTime, Mem.readI]

theorem Mem.readD_setTime (m : Mem) (t v off : ℕ) :
    (m.setTime t v).readD off = m.readD off := by
  simp [Mem.setTime, Mem.readD]

theorem Mem.readS_setTime (m : Mem) (t v off : ℕ) :
    (m.setTime t v).readS off = m.readS off := by
  simp [Mem.setTime, Mem.readS]

theorem Mem.times_setTime_self (m : Mem) (t v : ℕ) :
    (m.setTime t v).times t = v := by
  simp [Mem.setTime]

/-- Subtracting the last full period: if `W` divides `T` and
`T - W <= v < T` then `v % W = v - (T - W)`. -/
theorem mod_eq_sub_of_dvd (W T v : ℕ) (hd : W ∣ T) (h1 : T - W ≤ v)
    (h2 : v < T) (h0 : 0 < W) : v % W = v - (T - W) := by
  obtain ⟨j, hj⟩ := Nat.dvd_sub' hd (dvd_refl W)
  have hlt : v - (T - W) < W := by omega
  have hA : v = (v - (T - W)) + (T - W) := by omega
  calc v % W = ((v - (T - W)) + (T - W)) % W := by rw [← hA]
  _ = ((v - (T - W)) + W * j) % W := by rw [hj]
  _ = (v - (T - W)) % W := by rw [Nat.mul_comm, Nat.add_mul_mod_self_right]
  _ = v - (T - W) := Nat.mod_eq_of_lt hlt

/-- Arithmetic core of the narrow-integer round trip: storing the low
`w` bits of a `t`-bit word and sign-extending them back is the identity
on words that are themselves sign-extensions of `w`-bit values. -/
theorem signExtTo_mod_self (t w v : ℕ) (hw : 0 < w) (hwt : w ≤ t)
    (hv : v < 2 ^ t) (hdom : v < 2 ^ (w - 1) ∨ 2 ^ t - 2 ^ (w - 1) ≤ v) :
    signExtTo t w (v % 2 ^ w) = v := by
  have h2 : (2 : ℕ) ^ w = 2 ^ (w - 1) * 2 := by
    rw [← pow_succ]; congr 1; omega
  have hwle : (2 : ℕ) ^ w ≤ 2 ^ t := Nat.pow_le_pow_right (by norm_num) hwt
  have hWpos : 0 < (2 : ℕ) ^ w := Nat.pos_pow_of_pos _ (by norm_num)
  have hPpos : 0 < (2 : ℕ) ^ (w - 1) := Nat.pos_pow_of_pos _ (by norm_num)
  rcases hdom with hlt | hge
  · have hvW : v < 2 ^ w := by omega
    rw [Nat.mod_eq_of_lt hvW]
    unfold signExtTo
    rw [if_pos hlt]
    exact Nat.mod_eq_of_lt hv
  · have hkey : v % 2 ^ w = v - (2 ^ t - 2 ^ w) :=
      mod_eq_sub_of_dvd _ _ _ (pow_dvd_pow 2 hwt) (by omega) hv hWpos
    unfold signExtTo
    have hnot : ¬ v % 2 ^ w < 2 ^ (w - 1) := by omega
    rw [if_neg hnot, hkey]
    have hsum : v - (2 ^ t - 2 ^ w) + (2 ^ t - 2 ^ w) = v := by omega
    rw [hsum]
    exact Nat.mod_eq_of_lt hv

/-- C2: for every primitive kind and every value in that kind's domain,
the typed update of a resolved node of that kind followed by the typed
read returns the written value.  Kinds and their domains: F64 with any
double, I64 with any 64-bit word, I32 with any 32-bit word, I16 and I8
with the 32-bit words that are sign-extensions of 16- resp. 8-bit
values (the C accessors pass and return `uint32_t` two's-complement
words), Bool with any boolean, and FixedStr(size) with any byte string
of length at most `size - 1`. -/
theorem typed_update_read_roundtrip :
    (∀ (lst : SNode) (m : Mem) (now : ℕ) (q : ℚ), lst.typ = .dbl →
      (doubleValue lst (updateDouble lst q now m).2).1 = q) ∧
    (∀ (lst : SNode) (m : Mem) (now v : ℕ), lst.typ = .int64 → v < 2 ^ 64 →
      (longValue lst (updateLong lst v now m).2).1 = v) ∧
    (∀ (lst : SNode) (m : Mem) (now v : ℕ), lst.typ = .int32 → v < 2 ^ 32 →
      (intValue lst (updateInt lst v now m).2).1 = v) ∧
    (∀ (lst : SNode) (m : Mem) (now v : ℕ), lst.typ = .int16 → v < 2 ^ 32 →
      (v < 2 ^ 15 ∨ 2 ^ 32 - 2 ^ 15 ≤ v) →
      (intValue lst (updateInt lst v now m).2).1 = v) ∧
    (∀ (lst : SNode) (m : Mem) (now v : ℕ), lst.typ = .int8 → v < 2 ^ 32 →
      (v < 2 ^ 7 ∨ 2 ^ 32 - 2 ^ 7 ≤ v) →
      (intValue lst (updateInt lst v now m).2).1 = v) ∧
    (∀ (lst : SNode) (m : Mem) (now : ℕ) (b : Bool), lst.typ = .boolT →
      (boolValue lst (updateBoolean lst b now m).2).1 = b) ∧
    (∀ (lst : SNode) (m : Mem) (now : ℕ) (s : Name), lst.typ = .chrT →
      s.length ≤ lst.size - 1 →
      readStringV lst (updateString lst s now m).2 = s) := by
  refine ⟨?_, ?_, ?_, ?_, ?_, ?_, ?_⟩
  · intro lst m now q h
    simp [updateDouble, doubleValue, h, setUpdateTimeM, Mem.readD_setTime,
      Mem.readD_setData_self]
  · intro lst m now v h hv
    simp [updateLong, longValue, h, setUpdateTimeM, Mem.readI_setTime,
      Mem.readI_setData_self]
    omega
  · intro lst m now v h hv
    simp [updateInt, intValue, h, setUpdateTimeM, Mem.readI_setTime,
      Mem.readI_setData_self]
    omega
  · intro lst m now v h hv hdom
    have hmod : v % 2 ^ 32 = v := Nat.mod_eq_of_lt hv
    simp only [updateInt, intValue, h, setUpdateTimeM, Mem.readI_setTime,
      Mem.readI_setData_self, hmod]
    exact signExtTo_mod_self 32 16 v (by norm_num) (by norm_num) hv hdom
  · intro lst m now v h hv hdom
    have hmod : v % 2 ^ 32 = v := Nat.mod_eq_of_lt hv
    simp only [updateInt, intValue, h, setUpdateTimeM, Mem.readI_setTime,
      Mem.readI_setData_self, hmod]
    exact signExtTo_mod_self 32 8 v (by norm_num) (by norm_num) hv hdom
  · intro lst m now b h
    cases b <;>
      simp [updateBoolean, boolValue, h, setUpdateTimeM, Mem.readI_setTime,
        Mem.readI_setData_self]
  · intro lst m now s h hs
    simp [updateString, readStringV, h, setUpdateTimeM, Mem.readS_setTime,
      Mem.readS_setData_self, List.take_of_length_le hs]

/-- Concrete nodes used by the witnesses. -/
def sampleNode (t : SLType) : SNode := .mk [97] t 64 8 32 [] []

/-- Concrete FixedStr node of size 8. -/
def sampleStrNode : SNode := .mk [97] .chrT 64 8 32 [] []

/-- Zero-initialized payload. -/
def mem0 : Mem := ⟨fun _ => .ival 0, fun _ => 0⟩

/-- Witness for C2: the round trips evaluated at concrete nodes, a
concrete payload and concrete values. -/
theorem typed_update_read_roundtrip_witness :
    (doubleValue (sampleNode .dbl)
      (updateDouble (sampleNode .dbl) (3 / 2) 7 mem0).2).1 = 3 / 2 ∧
    (longValue (sampleNode .int64)
      (updateLong (sampleNode .int64) 5000000000 7 mem0).2).1 = 5000000000 ∧
    (intValue (sampleNode .int32)
      (updateInt (sampleNode .int32) 70000 7 mem0).2).1 = 70000 ∧
    (intValue (sampleNode .int16)
      (updateInt (sampleNode .int16) 4294934528 7 mem0).2).1 = 4294934528 ∧
    (intValue (sampleNode .int8)
      (updateInt (sampleNode .int8) 100 7 mem0).2).1 = 100 ∧
    (boolValue (sampleNode .boolT)
      (updateBoolean (sampleNode .boolT) true 7 mem0).2).1 = true ∧
    readStringV sampleStrNode
      (updateString sampleStrNode [104, 105] 7 mem0).2 = [104, 105] := by
  obtain ⟨h1, h2, h3, h4, h5, h6, h7⟩ := typed_update_read_roundtrip
  exact ⟨h1 _ mem0 7 (3 / 2) rfl,
    h2 _ mem0 7 5000000000 rfl (by norm_num),
    h3 _ mem0 7 70000 rfl (by norm_num),
    h4 _ mem0 7 4294934528 rfl (by norm_num) (by norm_num),
    h5 _ mem0 7 100 rfl (by norm_num) (by norm_num),
    h6 _ mem0 7 true rfl,
    h7 _ mem0 7 [104, 105] rfl (by norm_num [sampleStrNode, SNode.size])⟩

/-- C10: every typed update on a non-null node stamps the node's
timestamp slot unconditionally — also when the node's kind cannot
accept the value (composite kinds), in which case the call returns
false but the timestamp slot is written anyway. -/
theorem update_stamps_time_unconditionally :
    ∀ (lst : SNode) (m : Mem) (now v w : ℕ) (q : ℚ) (b : Bool) (s : Name),
    (updateInt lst v now m).2.times lst.time = now ∧
    (updateLong lst w now m).2.times lst.time = now ∧
    (updateDouble lst q now m).2.times lst.time = now ∧
    (updateBoolean lst b now m).2.times lst.time = now ∧
    (updateString lst s now m).2.times lst.time = now ∧
    (lst.typ = .unitT →
      (updateInt lst v now m).1 = false ∧
      (updateLong lst w now m).1 = false ∧
      (updateDouble lst q now m).1 = false ∧
      (updateBoolean lst b now m).1 = false ∧
      (updateString lst s now m).1 = false) := by
  intro lst m now v w q b s
  refine ⟨?_, ?_, ?_, ?_, ?_, ?_⟩
  · simp [updateInt, setUpdateTimeM, Mem.times_setTime_self]
  · simp [updateLong, setUpdateTimeM, Mem.times_setTime_self]
  · simp [updateDouble, setUpdateTimeM, Mem.times_setTime_self]
  · simp [updateBoolean, setUpdateTimeM, Mem.times_setTime_self]
  · simp [updateString, setUpdateTimeM, Mem.times_setTime_self]
  · intro h
    refine ⟨?_, ?_, ?_, ?_, ?_⟩ <;>
      simp [updateInt, updateLong, updateDouble, updateBoolean, updateString, h]

/-- Witness for C10: a failed update on a Unit-typed node still writes
the timestamp slot. -/
theorem update_stamps_time_unconditionally_witness :
    (updateInt (sampleNode .unitT) 3 99 mem0).2.times 32 = 99 ∧
    (updateInt (sampleNode .unitT) 3 99 mem0).1 = false := by
  obtain ⟨h1, _, _, _, _, h6⟩ :=
    update_stamps_time_unconditionally (sampleNode .unitT) mem0 99 3 0 0 false []
  exact ⟨h1, (h6 rfl).1⟩

/-! ### The consumed hierarchical document type (CppON)

The document library is an external collaborator; the embedding models
the consumed interface: a tagged union of scalars and two containers,
type queries, and the coercions the bridge calls. -/

/-- Tagged document values: COInteger, CODouble, COString, COBoolean,
COMap (ordered key/value list) and COArray. -/
inductive Doc where
  | i (z : ℤ)
  | d (q : ℚ)
  | s (bs : Name)
  | b (v : Bool)
  | m (entries : List (Name × Doc))
  | a (elems : List Doc)

/-- CppON::isMap. -/
def Doc.isMapD : Doc → Bool
  | .m _ => true
  | _ => false

/-- CppON::isArray. -/
def Doc.isArrD : Doc → Bool
  | .a _ => true
  | _ => false

/-- CppON::isDouble, the predicate `syncBoolean` actually checks. -/
def Doc.isDoubleD : Doc → Bool
  | .d _ => true
  | _ => false

/-- COBoolean::value (only ever meaningful on a boolean document). -/
def Doc.boolVal : Doc → Bool
  | .b v => v
  | _ => false

/-- COInteger::toInt model: the stored integer as a C `int`. -/
def Doc.toIntD : Doc → ℤ
  | .i z => toSigned 32 ((z % 2 ^ 32).toNat)
  | _ => 0

/-- COInteger::toLongInt model. -/
def Doc.toLongIntD : Doc → ℤ
  | .i z => toSigned 64 ((z % 2 ^ 64).toNat)
  | _ => 0

/-! ### Bulk document-driven update (SCppObj::updateObject / updateArray) -/

mutual

/-- SCppObj::updateObject (SCppObj.cpp:2435): walks the map document,
looks each key up among the node's children by exact name, dispatches
by the document element's kind, ignores every per-field result, and
returns true whenever it was given a map at all. -/
def updateObjectL (lst : SNode) (doc : Doc) (now : ℕ) (m : Mem) : Bool × Mem :=
  match doc with
  | .m entries => (true, updateObjFields lst entries now m)
  | _ => (false, m)

/-- Field loop of updateObject.  Note the integer dispatch repeats the
source's test of the PARENT node's `size` against `sizeof(uint64_t)`. -/
def updateObjFields (lst : SNode) (entries : List (Name × Doc)) (now : ℕ)
    (m : Mem) : Mem :=
  match entries with
  | [] => m
  | (k, ob) :: rest =>
    let m1 :=
      match lst.subs.find? (fun c => c.name = k) with
      | none => m
      | some child =>
        match ob with
        | .i z =>
          if lst.size = 8 then
            (updateLong child ((z % 2 ^ 64).toNat) now m).2
          else
            (updateInt child ((Doc.toIntD (.i z) % 2 ^ 32).toNat) now m).2
        | .d q => (updateDouble child q now m).2
        | .s bs => (updateString child bs now m).2
        | .b v => (updateBoolean child v now m).2
        | .m _ => (updateObjectL child ob now m).2
        | .a _ => (updateArrayL child ob now m).2
    updateObjFields lst rest now m1

/-- SCppObj::updateArray (SCppObj.cpp:2366): positional walk that skips
an element whose document kind does not match the node child's kind,
and returns false unconditionally. -/
def updateArrayL (lst : SNode) (doc : Doc) (now : ℕ) (m : Mem) : Bool × Mem :=
  match doc with
  | .a elems =>
    (false, if elems.isEmpty then m else updateArrFields lst.subs elems now m)
  | _ => (false, m)

/-- Element loop of updateArray.  The source iterates node children and
reads `arr->at(i)`; past the document's end `at` yields NULL and the
element is inert, which the embedding models by stopping. -/
def updateArrFields (subs : List SNode) (elems : List Doc) (now : ℕ)
    (m : Mem) : Mem :=
  match subs, elems with
  | [], _ => m
  | _, [] => m
  | c :: cs, ob :: obs =>
    let m1 :=
      match ob, c.typ with
      | .i z, .int64 => (updateLong c ((Doc.toLongIntD (.i z) % 2 ^ 64).toNat) now m).2
      | .i z, .int32 => (updateInt c ((Doc.toIntD (.i z) % 2 ^ 32).toNat) now m).2
      | .i z, .int16 => (updateInt c ((Doc.toIntD (.i z) % 2 ^ 32).toNat) now m).2
      | .i z, .int8 => (updateInt c ((Doc.toIntD (.i z) % 2 ^ 32).toNat) now m).2
      | .d q, .dbl => (updateDouble c q now m).2
      | .s bs, .chrT => (updateString c bs now m).2
      | .b v, .boolT => (updateBoolean c v now m).2
      | .m _, .unitT => (updateObjectL c ob now m).2
      | .a _, .arrT => (updateArrayL c ob now m).2
      | _, _ => m
    updateArrFields cs obs now m1

end

/-- Concrete I32 child node used in the C5 material. -/
def i32Child : SNode := .mk [48] .int32 200 4 48 [] []

/-- Concrete Array node with one I32 element. -/
def arrNode1 : SNode := .mk [97] .arrT 0 0 0 [([48], [48])] [i32Child]

/-- Concrete Unit node with no children. -/
def unitNode0 : SNode := .mk [117] .unitT 0 0 0 [] []

/-- Counterexample to C5: the final return value is NOT true iff at
least one field was updated.  `updateObject` on an empty map document
updates nothing yet returns true, and `updateArray` returns false even
though it did update a field (the I32 slot now holds 7). -/
theorem bulk_update_return_counterexample :
    updateObjectL unitNode0 (.m []) 5 mem0 = (true, mem0) ∧
    (updateArrayL arrNode1 (.a [.i 7]) 9 mem0).1 = false ∧
    (updateArrayL arrNode1 (.a [.i 7]) 9 mem0).2.data 200 = .ival 7 := by
  refine ⟨rfl, rfl, ?_⟩
  decide

/-- C5 (amended): a field whose key has no matching child (updateObject)
or whose document kind does not match the node child's kind
(updateArray) is skipped and the rest of the walk continues; but the
final return value does not report whether anything was updated:
`updateObject` returns true whenever it is given a map document and a
node, regardless of updates, and `updateArray` always returns false. -/
theorem bulk_update_skip_and_return :
    (∀ (lst : SNode) (entries : List (Name × Doc)) (now : ℕ) (m : Mem),
      (updateObjectL lst (.m entries) now m).1 = true) ∧
    (∀ (lst : SNode) (doc : Doc) (now : ℕ) (m : Mem),
      (updateArrayL lst doc now m).1 = false) ∧
    (∀ (lst : SNode) (doc : Doc) (now : ℕ) (m : Mem),
      doc.isMapD = false → updateObjectL lst doc now m = (false, m)) ∧
    (∀ (lst : SNode) (k : Name) (ob : Doc) (rest : List (Name × Doc))
        (now : ℕ) (m : Mem),
      lst.subs.find? (fun c => c.name = k) = none →
      updateObjFields lst ((k, ob) :: rest) now m =
        updateObjFields lst rest now m) ∧
    (∀ (c : SNode) (cs : List SNode) (obs : List Doc) (now : ℕ) (m : Mem)
        (bs : Name),
      c.typ = .int32 →
      updateArrFields (c :: cs) (.s bs :: obs) now m =
        updateArrFields cs obs now m) := by
  refine ⟨?_, ?_, ?_, ?_, ?_⟩
  · intro lst entries now m
    simp [updateObjectL]
  · intro lst doc now m
    cases doc <;> simp [updateArrayL]
  · intro lst doc now m h
    cases doc <;> simp_all [updateObjectL, Doc.isMapD]
  · intro lst k ob rest now m h
    rw [updateObjFields, h]
  · intro c cs obs now m bs h
    cases c with
    | mk n t o sz tm ps ss =>
      simp only [SNode.typ] at h
      subst h
      simp [updateArrFields, SNode.typ]

/-- Witness for C5 (amended): the hypotheses instantiated concretely: a
string element against an I32 array slot is skipped while the walk
continues, a non-map document is rejected by updateObject, and the
return values are as characterized. -/
theorem bulk_update_skip_and_return_witness :
    (updateObjectL unitNode0 (.m [([107], .i 1)]) 5 mem0).1 = true ∧
    (updateArrayL arrNode1 (.a [.i 7]) 9 mem0).1 = false ∧
    updateObjectL unitNode0 (.i 3) 5 mem0 = (false, mem0) ∧
    updateObjFields unitNode0 [([107], .i 1)] 5 mem0 =
      updateObjFields unitNode0 [] 5 mem0 ∧
    updateArrFields [i32Child] [.s [104]] 9 mem0 =
      updateArrFields [] [] 9 mem0 := by
  obtain ⟨h1, h2, h3, h4, h5⟩ := bulk_update_skip_and_return
  exact ⟨h1 unitNode0 [([107], .i 1)] 5 mem0,
    h2 arrNode1 (.a [.i 7]) 9 mem0,
    h3 unitNode0 (.i 3) 5 mem0 rfl,
    h4 unitNode0 [107] (.i 1) [] 5 mem0 rfl,
    h5 i32Child [] [] 9 mem0 [104] rfl⟩

/-! ### Document synchronisation from shared state (SCppObj::sync) -/

/-- SCppObj::syncInt (SCppObj.cpp:757): reads the shared integer (the
I64/I32 reads are signed, the I16/I8 reads are unsigned widenings),
overwrites the document element if it differs, and reports whether it
changed. -/
def syncIntL (obj : Doc) (lst : SNode) (m : Mem) : Bool × Doc :=
  match obj, lst.typ with
  | .i z, .int64 =>
    let l := toSigned 64 (m.readI lst.offset)
    if l ≠ Doc.toLongIntD (.i z) then (true, .i l) else (false, obj)
  | .i z, .int32 =>
    let l := toSigned 32 (m.readI lst.offset)
    if l ≠ Doc.toIntD (.i z) then (true, .i l) else (false, obj)
  | .i z, .int16 =>
    let l : ℤ := m.readI lst.offset
    if l ≠ Doc.toIntD (.i z) then (true, .i l) else (false, obj)
  | .i z, .int8 =>
    let l : ℤ := m.readI lst.offset
    if l ≠ Doc.toIntD (.i z) then (true, .i l) else (false, obj)
  | _, _ => (false, obj)

/-- SCppObj::syncDouble (SCppObj.cpp:808). -/
def syncDoubleL (obj : Doc) (lst : SNode) (m : Mem) : Bool × Doc :=
  match obj, lst.typ with
  | .d q, .dbl =>
    let d := m.readD lst.offset
    if d ≠ q then (true, .d d) else (false, obj)
  | _, _ => (false, obj)

/-- SCppObj::syncString (SCppObj.cpp:821). -/
def syncStringL (obj : Doc) (lst : SNode) (m : Mem) : Bool × Doc :=
  match obj, lst.typ with
  | .s bs, .chrT =>
    let s := m.readS lst.offset
    if s ≠ bs then (true, .s s) else (false, obj)
  | _, _ => (false, obj)

/-- SCppObj::syncBoolean (SCppObj.cpp:834).  The guard checks
`CppON::isDouble(obj)` — not the boolean predicate — so only a DOUBLE
document element enters the branch (where the source then reinterprets
it as a COBoolean); an actual boolean document element always falls
through with no change and result false. -/
def syncBooleanL (obj : Doc) (lst : SNode) (m : Mem) : Bool × Doc :=
  match obj, lst.typ with
  | .d _, .boolT =>
    let v := m.readI lst.offset ≠ 0
    if v ≠ obj.boolVal then (true, .b v) else (false, obj)
  | _, _ => (false, obj)

/-- First child whose stored full name equals the key (the scan of
`lst->names`/`lst->subs` in syncMap). -/
def syncFind (pairs : List (Name × Name)) (subs : List SNode) (k : Name) :
    Option SNode :=
  match pairs, subs with
  | [], _ => none
  | _, [] => none
  | p :: ps, c :: cs => if p.2 = k then some c else syncFind ps cs k

mutual

/-- SCppObj::syncMap (SCppObj.cpp:847). -/
def syncMapL (obj : Doc) (lst : SNode) (m : Mem) : Bool × Doc :=
  match obj, lst.typ with
  | .m entries, .unitT =>
    let r := syncMapEntries entries lst m
    (r.1, .m r.2)
  | _, _ => (false, obj)

/-- Entry loop of syncMap: each document key is looked up among the
children by full name and dispatched on the document element's kind. -/
def syncMapEntries (entries : List (Name × Doc)) (lst : SNode) (m : Mem) :
    Bool × List (Name × Doc) :=
  match entries with
  | [] => (false, [])
  | (k, jobj) :: rest =>
    let one : Bool × Doc :=
      match syncFind lst.pairs lst.subs k with
      | none => (false, jobj)
      | some l =>
        match jobj with
        | .i _ => syncIntL jobj l m
        | .d _ => syncDoubleL jobj l m
        | .s _ => syncStringL jobj l m
        | .b _ => syncBooleanL jobj l m
        | .m _ => syncMapL jobj l m
        | .a _ => syncArrL jobj l m
    let r := syncMapEntries rest lst m
    (one.1 || r.1, (k, one.2) :: r.2)

/-- SCppObj::syncArray (SCppObj.cpp:909). -/
def syncArrL (obj : Doc) (lst : SNode) (m : Mem) : Bool × Doc :=
  match obj, lst.typ with
  | .a elems, .arrT =>
    let r := syncArrElems elems lst.subs m
    (r.1, .a r.2)
  | _, _ => (false, obj)

/-- Element loop of syncArray: positional dispatch, extra document
elements beyond the node's children are left unchanged. -/
def syncArrElems (elems : List Doc) (subs : List SNode) (m : Mem) :
    Bool × List Doc :=
  match elems, subs with
  | [], _ => (false, [])
  | es, [] => (false, es)
  | jobj :: rest, l :: ls =>
    let one : Bool × Doc :=
      match jobj with
      | .i _ => syncIntL jobj l m
      | .d _ => syncDoubleL jobj l m
      | .s _ => syncStringL jobj l m
      | .b _ => syncBooleanL jobj l m
      | .m _ => syncMapL jobj l m
      | .a _ => syncArrL jobj l m
    let r := syncArrElems rest ls m
    (one.1 || r.1, one.2 :: r.2)

end

/-- SCppObj::sync (SCppObj.cpp:966): dispatch on the document element's
kind (every constructor satisfies `CppON::isObj`). -/
def syncL (obj : Doc) (lst : SNode) (m : Mem) : Bool × Doc :=
  match obj with
  | .i _ => syncIntL obj lst m
  | .d _ => syncDoubleL obj lst m
  | .s _ => syncStringL obj lst m
  | .b _ => syncBooleanL obj lst m
  | .m _ => syncMapL obj lst m
  | .a _ => syncArrL obj lst m

/-- Concrete Bool node and a payload whose shared boolean is true. -/
def boolNode : SNode := .mk [98] .boolT 100 1 40 [] []

/-- Payload storing 1 (true) in the Bool node's slot. -/
def memBool1 : Mem := mem0.setData 100 (.ival 1)

/-- C6 as it fails on the code: the shared Bool value (true) differs
from the boolean document element (false), yet `sync` leaves the
document element unchanged and returns false, because `syncBoolean`
guards on `isDouble` instead of the boolean predicate. -/
theorem sync_boolean_divergence :
    (boolValue boolNode memBool1).1 = true ∧
    syncL (.b false) boolNode memBool1 = (false, .b false) := by
  exact ⟨by decide, rfl⟩

/-! ### Local mirror and change detector (LocalCppObj) -/

/-- Local-mirror node: the fields of `LOCAL_CPP_OBJ` together with the
fields of its underlying `STRUCT_LISTS` that `checkChanges` uses
(name, type, offset, size) plus the per-node `hysteresis` that `addSub`
reads from the schema element (default 0).  The mirror buffer shares
the node's offsets, so it is modelled as a second `Mem`. -/
inductive LNode where
  | mk : Name → SLType → ℕ → ℕ → ℕ → List LNode → LNode

def LNode.name : LNode → Name
  | .mk n _ _ _ _ _ => n

def LNode.typ : LNode → SLType
  | .mk _ t _ _ _ _ => t

def LNode.offset : LNode → ℕ
  | .mk _ _ o _ _ _ => o

def LNode.size : LNode → ℕ
  | .mk _ _ _ s _ _ => s

def LNode.hyst : LNode → ℕ
  | .mk _ _ _ _ h _ => h

def LNode.subs : LNode → List LNode
  | .mk _ _ _ _ _ ss => ss

/-- Append a changed value into the output document, by key if it is a
map and positionally if it is an array (LocalCppObj.cpp, the
`isMap`/else branches of each case). -/
def appendDoc (rtn : Doc) (k : Name) (v : Doc) : Doc :=
  match rtn with
  | .m es => .m (es ++ [(k, v)])
  | .a es => .a (es ++ [v])
  | other => other

mutual

/-- LocalCppObj::checkChanges (LocalCppObj.cpp:151): walks the subtree,
compares shared against mirror with per-kind hysteresis, updates the
mirror in place for changed fields, and appends changed values into the
caller's map- or array-shaped output document.  Result: (changes,
updated mirror, updated output document). -/
def checkChangesL : LNode → Mem → Mem → Doc → Bool × Mem × Doc
  | node, sh, lo, rtn =>
    match hg : rtn.isMapD || rtn.isArrD with
    | false => (false, lo, rtn)
    | true =>
      match node with
      | .mk nm t off sz hy subs =>
        match t with
        | .dbl =>
          let hyst : ℚ := (hy : ℚ) / 100
          let dShare := sh.readD off
          let dSave := lo.readD off
          if dShare > dSave + hyst ∨ dShare < dSave - hyst then
            (true, lo.setData off (.dval dShare), appendDoc rtn nm (.d dShare))
          else (false, lo, rtn)
        | .int64 =>
          let hyst : ℤ := (hy : ℤ)
          let iShare := toSigned 64 (sh.readI off)
          let iSave := toSigned 64 (lo.readI off)
          if iShare > iSave + hyst ∨ iShare < iSave - hyst then
            (true, lo.setData off (.ival ((iShare % 2 ^ 64).toNat)),
              appendDoc rtn nm (.i iShare))
          else (false, lo, rtn)
        | .int32 =>
          let hyst : ℤ := toSigned 32 (hy % 2 ^ 32)
          let iShare := toSigned 32 (sh.readI off)
          let iSave := toSigned 32 (lo.readI off)
          if iShare > iSave + hyst ∨ iShare < iSave - hyst then
            (true, lo.setData off (.ival ((iShare % 2 ^ 32).toNat)),
              appendDoc rtn nm (.i iShare))
          else (false, lo, rtn)
        | .int16 =>
          let hyst : ℤ := toSigned 32 (hy % 2 ^ 32)
          let iShare : ℤ := sh.readI off
          let iSave : ℤ := lo.readI off
          if iShare > iSave + hyst ∨ iShare < iSave - hyst then
            (true, lo.setData off (.ival ((iShare % 2 ^ 16).toNat)),
              appendDoc rtn nm (.i iShare))
          else (false, lo, rtn)
        | .int8 =>
          let hyst : ℤ := toSigned 32 (hy % 2 ^ 32)
          let iShare : ℤ := sh.readI off
          let iSave : ℤ := lo.readI off
          if iShare > iSave + hyst ∨ iShare < iSave - hyst then
            (true, lo.setData off (.ival ((iShare % 2 ^ 8).toNat)),
              appendDoc rtn nm (.i iShare))
          else (false, lo, rtn)
        | .boolT =>
          let iShare := sh.readI off
          let iSave := lo.readI off
          if iSave ≠ iShare then
            (true, lo.setData off (.ival (iShare % 2 ^ 8)),
              appendDoc rtn nm (.b (iShare ≠ 0)))
          else (false, lo, rtn)
        | .chrT =>
          let sShare := sh.readS off
          let sSave := lo.readS off
          if sShare ≠ sSave then
            (true, lo.setData off (.sval sShare), appendDoc rtn nm (.s sShare))
          else (false, lo, rtn)
        | .unitT =>
          let r := checkChangesSubs subs sh lo (.m [])
          match r.2 with
          | .m [] => (false, r.1, rtn)
          | sub => (true, r.1, appendDoc rtn nm sub)
        | .arrT =>
          let r := checkChangesSubs subs sh lo (.a [])
          match r.2 with
          | .a [] => (false, r.1, rtn)
          | sub => (true, r.1, appendDoc rtn nm sub)

/-- Child loop of the composite cases of checkChanges: each child's
per-call result is ignored, the mirror and the fresh sub-document are
threaded through. -/
def checkChangesSubs : List LNode → Mem → Mem → Doc → Mem × Doc
  | [], _, lo, acc => (lo, acc)
  | c :: cs, sh, lo, acc =>
    let r := checkChangesL c sh lo acc
    checkChangesSubs cs sh r.2.1 r.2.2

end

/-- C3: on a float node with hysteresis `h`, when the shared value is
`mirror + x`, checkChanges reports a change iff `|x| > h/100`; the
mirror and the output document are untouched otherwise, and on a change
the mirror is updated in place and the new value appended. -/
theorem checkChanges_float_hysteresis :
    ∀ (nm : Name) (off sz h : ℕ) (mv x : ℚ) (es : List (Name × Doc))
      (sh lo : Mem),
    sh.readD off = mv + x → lo.readD off = mv →
    ((checkChangesL (.mk nm .dbl off sz h []) sh lo (.m es)).1 = true ↔
      |x| > (h : ℚ) / 100) ∧
    (¬ |x| > (h : ℚ) / 100 →
      checkChangesL (.mk nm .dbl off sz h []) sh lo (.m es) =
        (false, lo, .m es)) ∧
    (|x| > (h : ℚ) / 100 →
      (checkChangesL (.mk nm .dbl off sz h []) sh lo (.m es)).2.1.readD off
          = mv + x ∧
      (checkChangesL (.mk nm .dbl off sz h []) sh lo (.m es)).2.2 =
        .m (es ++ [(nm, .d (mv + x))])) := by
  intro nm off sz h mv x es sh lo hsh hlo
  have hcond : (mv + x > mv + (h : ℚ) / 100 ∨ mv + x < mv - (h : ℚ) / 100) ↔
      |x| > (h : ℚ) / 100 := by
    constructor
    · rintro (h1 | h1)
      · have hx : (h : ℚ) / 100 < x := by linarith
        exact lt_of_lt_of_le hx (le_abs_self x)
      · have hx : (h : ℚ) / 100 < -x := by linarith
        exact lt_of_lt_of_le hx (neg_le_abs x)
    · intro h1
      rcases lt_abs.mp h1 with h2 | h2
      · left; linarith
      · right; linarith
  simp only [checkChangesL, Doc.isMapD, Doc.isArrD, Bool.true_or,
    Bool.false_or, Bool.or_false, hsh, hlo, appendDoc]
  refine ⟨?_, ?_, ?_⟩
  · constructor
    · intro hr
      by_contra hno
      rw [← hcond] at hno
      rw [if_neg hno] at hr
      exact Bool.false_ne_true hr
    · intro hx
      rw [if_pos (hcond.mpr hx)]
      rfl
  · intro hno
    rw [if_neg (fun hc => hno (hcond.mp hc))]
    rfl
  · intro hx
    rw [if_pos (hcond.mpr hx)]
    exact ⟨Mem.readD_setData_self lo off (mv + x), rfl⟩

/-- Witness for C3: hysteresis 50 (threshold 0.5), mirror 20, shared
21: the write of +1 exceeds the threshold, so a change is reported and
the value is appended; obtained by applying the theorem at these
inputs. -/
theorem checkChanges_float_hysteresis_witness :
    ((checkChangesL (.mk [116] .dbl 10 8 50 [])
        (mem0.setData 10 (.dval 21)) (mem0.setData 10 (.dval 20))
        (.m [])).1 = true ↔ |(1 : ℚ)| > (50 : ℚ) / 100) ∧
    ((checkChangesL (.mk [116] .dbl 10 8 50 [])
        (mem0.setData 10 (.dval 21)) (mem0.setData 10 (.dval 20))
        (.m [])).2.2 = .m [([116], .d (20 + 1))]) := by
  have h := checkChanges_float_hysteresis [116] 10 8 50 20 1 []
    (mem0.setData 10 (.dval 21)) (mem0.setData 10 (.dval 20))
    (by rw [Mem.readD_setData_self]; norm_num) (Mem.readD_setData_self _ _ _)
  exact ⟨h.1, ((h.2.2 (by norm_num)).2).trans (by norm_num)⟩

/-! ### Segment header initialisation and validation (SCppObj::setBasePointer) -/

/-- Running 16-bit checksum over bytes, as the `uint16_t s` accumulator
of both the initializer and the validator. -/
def chk16 (l : Name) : ℕ := l.foldl (fun s b => (s + b) % 65536) 0

/-- The arithmetic progression bytes 20..29: each byte is the previous
one plus 1 as a `uint8_t` (so wrapping mod 256), starting from the
value of byte 19. -/
def progGen : ℕ → ℕ → Name
  | _, 0 => []
  | r, k + 1 => ((r + 1) % 256) :: progGen ((r + 1) % 256) k

/-- Header produced by the initializer (SCppObj.cpp:3099..3128): byte 0
is 0xA5 (written last), bytes 1..19 are the accepted random bytes
(each nonzero and not 0xFF — the rejection loop guarantees it), bytes
20..29 the progression from byte 19, bytes 30..31 the little-endian
16-bit checksum of bytes 0..29 (seeded with 0xA5). -/
def produceHeader (r : Name) : Name :=
  165 :: (r ++ (progGen (r.getLastD 0) 10 ++
    [chk16 (165 :: (r ++ progGen (r.getLastD 0) 10)) % 256,
     chk16 (165 :: (r ++ progGen (r.getLastD 0) 10)) / 256 % 256]))

/-- Progression check of the validator: sequentially compare each byte
against the incremented (wrapping) predecessor. -/
def progOk (r : ℕ) : Name → Bool
  | [] => true
  | b :: t => ((r + 1) % 256 == b) && progOk ((r + 1) % 256) t

/-- Header validation of an attacher (SCppObj.cpp:3033..3082): byte 0
must be 0xA5; bytes 0..19 must be nonzero and not 0xFF and are summed;
bytes 20..29 are summed; bytes 30..31 must equal the 16-bit sum; bytes
20..29 must be the +1 progression from byte 19. -/
def validateHeader (hd : Name) : Bool :=
  (hd.getD 0 0 == 165) &&
  ((hd.take 20).all (fun b => b != 0 && b != 255)) &&
  (let s := chk16 (hd.take 30)
   (hd.getD 30 0 == s % 256) && (hd.getD 31 0 == s / 256 % 256)) &&
  progOk (hd.getD 19 0) ((hd.drop 20).take 10)

theorem progGen_length (r k : ℕ) : (progGen r k).length = k := by
  induction k generalizing r with
  | zero => rfl
  | succ n ih => simp [progGen, ih]

theorem progOk_progGen (r k : ℕ) : progOk r (progGen r k) = true := by
  induction k generalizing r with
  | zero => rfl
  | succ n ih => simp [progGen, progOk, ih]

/-- Validation succeeds on any header of the produced shape: 0xA5, then
19 nonzero non-0xFF bytes, then a valid +1 progression of 10 bytes from
byte 19, then the two checksum bytes of the 16-bit sum of bytes 0..29. -/
theorem validateHeader_shape (r pgl : Name) (c : ℕ) (hlen : r.length = 19)
    (hpl : pgl.length = 10) (hball : ∀ b ∈ r, 0 < b ∧ b < 255)
    (hprog : progOk (r.getLastD 0) pgl = true)
    (hc : c = chk16 (165 :: (r ++ pgl))) :
    validateHeader (165 :: (r ++ (pgl ++ [c % 256, c / 256 % 256]))) = true := by
  have htake19 : (r ++ (pgl ++ [c % 256, c / 256 % 256])).take 19 = r :=
    List.take_left' hlen
  have htake29 : (r ++ (pgl ++ [c % 256, c / 256 % 256])).take 29 = r ++ pgl := by
    rw [List.take_append_eq_append_take, List.take_of_length_le (by omega),
      hlen, List.take_append_eq_append_take, List.take_of_length_le (by omega),
      hpl]
    simp
  have hdrop19 : (r ++ (pgl ++ [c % 256, c / 256 % 256])).drop 19 =
      pgl ++ [c % 256, c / 256 % 256] := by
    rw [List.drop_append_eq_append_drop, List.drop_of_length_le (by omega),
      hlen]
    simp
  have htake10 : (pgl ++ [c % 256, c / 256 % 256]).take 10 = pgl :=
    List.take_left' hpl
  have hlen29 : (r ++ pgl).length = 29 := by simp [hlen, hpl]
  have hgetD30 : (r ++ (pgl ++ [c % 256, c / 256 % 256])).getD 29 0 = c % 256 := by
    rw [List.getD_eq_getElem?_getD, ← List.append_assoc,
      List.getElem?_append_right (by omega), hlen29]
    rfl
  have hgetD31 : (r ++ (pgl ++ [c % 256, c / 256 % 256])).getD 30 0 =
      c / 256 % 256 := by
    rw [List.getD_eq_getElem?_getD, ← List.append_assoc,
      List.getElem?_append_right (by omega), hlen29]
    rfl
  have hgetD19 : (r ++ (pgl ++ [c % 256, c / 256 % 256])).getD 18 0 =
      r.getLastD 0 := by
    rw [List.getD_eq_getElem?_getD, List.getElem?_append,
      if_pos (by omega : (18:ℕ) < r.length),
      List.getLastD_eq_getLast?, List.getLast?_eq_getElem?, hlen]
  unfold validateHeader
  simp only [List.getD_cons_zero, List.getD_cons_succ, List.take_succ_cons,
    List.drop_succ_cons, htake19, htake29, hdrop19, htake10, hgetD30,
    hgetD31, hgetD19, ← hc]
  refine Bool.and_eq_true_iff.mpr ⟨Bool.and_eq_true_iff.mpr
    ⟨Bool.and_eq_true_iff.mpr ⟨?_, ?_⟩, ?_⟩, ?_⟩
  · rfl
  · rw [List.all_eq_true]
    intro b hbmem
    rcases List.mem_cons.mp hbmem with h | h
    · subst h; decide
    · obtain ⟨h1, h2⟩ := hball b h
      simp only [Bool.and_eq_true, bne_iff_ne, ne_eq]
      omega
  · simp
  · exact hprog

/-- C4: a header produced by the initializer from any accepted stream
of random bytes (19 bytes, each nonzero and not 0xFF — exactly what the
producer's rejection loop admits) passes the attacher's validation. -/
theorem validate_produce_header (r : Name) (hlen : r.length = 19)
    (hb : ∀ b ∈ r, 0 < b ∧ b < 255) :
    validateHeader (produceHeader r) = true := by
  exact validateHeader_shape r (progGen (r.getLastD 0) 10)
    (chk16 (165 :: (r ++ progGen (r.getLastD 0) 10))) hlen
    (progGen_length _ _) hb (progOk_progGen _ _) rfl

/-- Witness for C4: validation of the header produced from a concrete
accepted random stream (nineteen 7s). -/
theorem validate_produce_header_witness :
    validateHeader (produceHeader (List.replicate 19 7)) = true :=
  validate_produce_header (List.replicate 19 7) (by decide)
    (by intro b hb; rw [List.eq_of_mem_replicate hb]; omega)

/-! ### Schema compiler (SCppObj::initializeObject / buildUnit / buildArray)

The schema document ("config") is a COMap; its children are iterated in
sorted key order (a std::map invariant), so `buildNames`'s re-sort of
the child names is the identity and the embedding takes the child list
as already key-sorted.  Phase 1 assigns per-class relative offsets and
timestamp slots in a single depth-first walk; phase 2 (setBasePointer's
init path via unitDefaults/arrayDefaults) rewrites each primitive's
offset to region base plus relative offset, where the region bases are
{timestamps, F64, I64, I32, I16, 8-bit, FixedStr} in that order. -/

/-- Schema default values. -/
inductive DVal where
  | iv (z : ℤ)
  | dv (q : ℚ)
  | sv (bs : Name)
  | bv (b : Bool)

/-- Primitive schema type tags (the "type" strings float/int/bool/string). -/
inductive PType where
  | tFloat | tInt | tBool | tString
deriving DecidableEq

/-- Schema elements: a primitive spec (type, optional size, optional
defaultValue), a `unit` with key-sorted children, or an `array` with
densely numbered children given positionally. -/
inductive SpecT where
  | prim (t : PType) (size : Option ℤ) (dv : Option DVal)
  | unit (children : List (Name × SpecT))
  | arr (children : List SpecT)

/-- The running per-class offset cursors of the compiler (`timeOffset`,
`doubleOffset`, `int64Offset`, `int32Offset`, `int16Offset`,
`eightBitOffset`, `charOffset`). -/
structure Cur where
  tim : ℕ
  dbl : ℕ
  i64 : ℕ
  i32 : ℕ
  i16 : ℕ
  e8 : ℕ
  ch : ℕ

/-- Length of the common initial run of equal bytes (the comparison
loops of buildNames stop at the first differing byte, a terminator
counting as differing from any data byte). -/
def lcpLen : Name → Name → ℕ
  | a :: as, b :: bs => if a = b then lcpLen as bs + 1 else 0
  | _, _ => 0

/-- The acronym built from `cur` once the comparison loop stopped at
position `j`: the first `j` bytes plus one more byte if one exists (the
source appends `sPtr[j]`, which is the terminator when `j` is past the
end, leaving just the name). -/
def acroOf (cur : Name) (j : ℕ) : Name :=
  if j < cur.length then cur.take (j + 1) else cur

/-- Stop position of the middle-entry loop of buildNames: advance while
the byte equals the previous or the next name's byte at that position
(within their lengths). -/
def midJ : Name → Name → Name → ℕ
  | c :: cs, p :: ps, n :: ns =>
    if c = p ∨ c = n then midJ cs ps ns + 1 else 0
  | c :: cs, p :: ps, [] => if c = p then midJ cs ps [] + 1 else 0
  | c :: cs, [], n :: ns => if c = n then midJ cs [] ns + 1 else 0
  | _, _, _ => 0

/-- The search key of entry `i` of a sorted name list, following the
three positional cases of the buildNames loop (SCppObj.cpp:3361..3399):
the sole entry keeps just its first byte; the first entry compares with
its successor, the last with its predecessor, the rest with both. -/
def acroAt (ns : List Name) (i : ℕ) : Name :=
  if ns.length ≤ 1 then (ns.getD i []).take 1
  else if i = 0 then acroOf (ns.getD 0 []) (lcpLen (ns.getD 0 []) (ns.getD 1 []))
  else if i = ns.length - 1 then
    acroOf (ns.getD i []) (lcpLen (ns.getD i []) (ns.getD (i - 1) []))
  else acroOf (ns.getD i []) (midJ (ns.getD i []) (ns.getD (i - 1) []) (ns.getD (i + 1) []))

/-- SCppObj::buildNames (SCppObj.cpp:3330) on a sorted name list: the
minimal search keys stored in front of each full name. -/
def buildAcros (ns : List Name) : List Name :=
  (List.range ns.length).map (acroAt ns)

/-- Search pairs (key, full name) of a sorted name list. -/
def buildPairs (names : List Name) : List (Name × Name) :=
  (buildAcros names).zip names

/-- buildArrayNames (SCppObj.cpp:3298): array children are named by the
running counter, and the key equals the name. -/
def arrPairs (n : ℕ) : List (Name × Name) :=
  (List.range n).map (fun i => (decBytes i, decBytes i))

/-- Nested primitive build (the leaf branches of buildUnit,
SCppObj.cpp:3621..3688, identical in buildArray): assign the timestamp
slot, then the class cursor as relative offset, then advance the
cursor.  An integer size outside {1,2,4,8} falls into the `default:`
branch and becomes a 4-byte I32. -/
def buildPrimNested (name : Name) (t : PType) (szOpt : Option ℤ) (c : Cur) :
    SNode × Cur :=
  let tm := c.tim
  let c1 := { c with tim := c.tim + 8 }
  match t with
  | .tInt =>
    let sz := szOpt.getD 4
    if sz = 1 then
      (.mk name .int8 c1.e8 1 tm [] [], { c1 with e8 := c1.e8 + 1 })
    else if sz = 2 then
      (.mk name .int16 c1.i16 2 tm [] [], { c1 with i16 := c1.i16 + 2 })
    else if sz = 8 then
      (.mk name .int64 c1.i64 8 tm [] [], { c1 with i64 := c1.i64 + 8 })
    else
      (.mk name .int32 c1.i32 4 tm [] [], { c1 with i32 := c1.i32 + 4 })
  | .tFloat => (.mk name .dbl c1.dbl 8 tm [] [], { c1 with dbl := c1.dbl + 8 })
  | .tString =>
    let sz := (szOpt.getD 16).toNat
    (.mk name .chrT c1.ch sz tm [] [], { c1 with ch := c1.ch + sz })
  | .tBool => (.mk name .boolT c1.e8 1 tm [] [], { c1 with e8 := c1.e8 + 1 })

/-- Top-level primitive build (initializeObject, SCppObj.cpp:335..395).
It matches the nested build except for the string branch, which
increments the char cursor BEFORE storing it as the offset
(`charOffset += sz; ls->offset = charOffset;`, lines 387..388), so a
top-level FixedStr's relative offset already lies past its own
storage. -/
def buildPrimTop (name : Name) (t : PType) (szOpt : Option ℤ) (c : Cur) :
    SNode × Cur :=
  match t with
  | .tString =>
    let tm := c.tim
    let c1 := { c with tim := c.tim + 8 }
    let sz := (szOpt.getD 16).toNat
    let c2 := { c1 with ch := c1.ch + sz }
    (.mk name .chrT c2.ch sz tm [] [], c2)
  | other => buildPrimNested name other szOpt c

/-- Total size a composite records: the sum of all class cursors at the
time the composite finishes (buildUnit line 3691 / buildArray 3551). -/
def compSize (c : Cur) : ℕ := c.e8 + c.ch + c.dbl + c.i32 + c.i64 + c.i16

mutual

/-- Build one nested schema element (buildUnit / buildArray dispatch). -/
def buildSpec1 (name : Name) (spec : SpecT) (c : Cur) : SNode × Cur :=
  match spec with
  | .prim t sz _ => buildPrimNested name t sz c
  | .unit cs =>
    let r := buildUnitKids cs c
    (.mk name .unitT 0 (compSize r.2) 0 (buildPairs (cs.map Prod.fst)) r.1,
      r.2)
  | .arr cs =>
    let r := buildArrKids cs 0 c
    (.mk name .arrT 0 (compSize r.2) 0 (arrPairs cs.length) r.1, r.2)

/-- Children of a unit, in sorted key order. -/
def buildUnitKids (cs : List (Name × SpecT)) (c : Cur) : List SNode × Cur :=
  match cs with
  | [] => ([], c)
  | (n, sp) :: rest =>
    let r1 := buildSpec1 n sp c
    let r2 := buildUnitKids rest r1.2
    (r1.1 :: r2.1, r2.2)

/-- Children of an array, named by position. -/
def buildArrKids (cs : List SpecT) (i : ℕ) (c : Cur) : List SNode × Cur :=
  match cs with
  | [] => ([], c)
  | sp :: rest =>
    let r1 := buildSpec1 (decBytes i) sp c
    let r2 := buildArrKids rest (i + 1) r1.2
    (r1.1 :: r2.1, r2.2)

end

/-- Top-level children walk of initializeObject: primitives use the
top-level branches, composites go through buildUnit / buildArray. -/
def buildTopKids (cs : List (Name × SpecT)) (c : Cur) : List SNode × Cur :=
  match cs with
  | [] => ([], c)
  | (n, sp) :: rest =>
    let r1 :=
      match sp with
      | .prim t sz _ => buildPrimTop n t sz c
      | other => buildSpec1 n other c
    let r2 := buildTopKids rest r1.2
    (r1.1 :: r2.1, r2.2)

/-- Region bases computed after phase 1 (SCppObj.cpp:399..404). -/
structure Starts where
  dblS : ℕ
  i64S : ℕ
  i32S : ℕ
  i16S : ℕ
  e8S : ℕ
  chS : ℕ

/-- The bases in region order {timestamps, F64, I64, I32, I16, 8-bit,
FixedStr}. -/
def startsOf (c : Cur) : Starts :=
  let dblS := c.tim
  let i64S := dblS + c.dbl
  let i32S := i64S + c.i64
  let i16S := i32S + c.i32
  let e8S := i16S + c.i16
  let chS := e8S + c.e8
  ⟨dblS, i64S, i32S, i16S, e8S, chS⟩

/-- Total payload size `S` (= charStart + charOffset, line 405). -/
def totalSize (c : Cur) : ℕ := (startsOf c).chS + c.ch

/-- Region base of a primitive class. -/
def regionStart (st : Starts) : SLType → ℕ
  | .dbl => st.dblS
  | .int64 => st.i64S
  | .int32 => st.i32S
  | .int16 => st.i16S
  | .int8 => st.e8S
  | .boolT => st.e8S
  | .chrT => st.chS
  | _ => 0

mutual

/-- Phase 2: rewrite each primitive's offset to base + relative offset
(`ls->offset += <class>Offset` in setBasePointer / unitDefaults /
arrayDefaults, after the cursors were reset to the region bases). -/
def fixupN (st : Starts) : SNode → SNode
  | .mk n t off sz tm ps ss =>
    match t with
    | .unitT => .mk n t off sz tm ps (fixupL st ss)
    | .arrT => .mk n t off sz tm ps (fixupL st ss)
    | _ => .mk n t (off + regionStart st t) sz tm ps ss

def fixupL (st : Starts) : List SNode → List SNode
  | [] => []
  | x :: xs => fixupN st x :: fixupL st xs

end

mutual

/-- Presence of defaultValue on every primitive: the only schema error
the source raises (`throw std::invalid_argument` in unitDefaults /
arrayDefaults / setBasePointer when "defaultValue" is missing). -/
def defaultsOk : SpecT → Bool
  | .prim _ _ (some _) => true
  | .prim _ _ none => false
  | .unit cs => defaultsOkKids cs
  | .arr cs => defaultsOkArr cs

def defaultsOkKids : List (Name × SpecT) → Bool
  | [] => true
  | (_, sp) :: rest => defaultsOk sp && defaultsOkKids rest

def defaultsOkArr : List SpecT → Bool
  | [] => true
  | sp :: rest => defaultsOk sp && defaultsOkArr rest

end

/-- Bytes of the root node's name "base". -/
def baseBytes : Name := [98, 97, 115, 101]

/-- The compiled result for a schema (given as its key-sorted top-level
children): the fixed-up node tree and the total payload size, or
failure when a primitive lacks a default value (the sole SchemaInvalid
the source raises). -/
def compileSchema (cs : List (Name × SpecT)) : Option (SNode × ℕ) :=
  if defaultsOkKids cs then
    let r := buildTopKids cs ⟨32, 0, 0, 0, 0, 0, 0⟩
    let st := startsOf r.2
    let S := totalSize r.2
    some (.mk baseBytes .unitT 32 S 0 (buildPairs (cs.map Prod.fst))
      (fixupL st r.1), S)
  else none

/-- C1 fails on the code: compiling a schema whose top level declares a
single FixedStr of size 16 yields payload size S = 56 but gives the
string data offset 56, so `data_offset + fixed_size = 72 > S` and the
string's storage lies entirely outside the payload (its default is even
written there during initialization).  The inverted cursor update
exists only in the top-level string branch; buildUnit and buildArray
assign the offset before advancing the cursor. -/
theorem toplevel_string_exceeds_payload :
    compileSchema [([115], .prim .tString (some 16) (some (.sv [])))] =
      some (.mk baseBytes .unitT 32 56 0 [([115], [115])]
        [.mk [115] .chrT 56 16 32 [] []], 56) ∧
    56 + 16 > 56 := by
  exact ⟨rfl, by omega⟩

/-- Counterexample to C9: a schema declaring an integer primitive with
size 3 (outside {1,2,4,8}) compiles without any SchemaInvalid failure;
the field is silently given the default 4-byte I32 width. -/
theorem int_size3_compiles_without_error :
    compileSchema [([120], .prim .tInt (some 3) (some (.iv 0)))] =
      some (.mk baseBytes .unitT 32 44 0 [([120], [120])]
        [.mk [120] .int32 40 4 32 [] []], 44) := rfl

/-- C9 (amended): an integer size outside {1,2,4,8} does not abort the
attach; the switch's `default:` branch silently compiles the field as a
4-byte I32 (so a single such top-level field yields exactly the node an
explicit size-4 declaration would yield). -/
theorem int_size_out_of_range_amended :
    ∀ (sz : ℤ) (nm : Name) (d : DVal),
    sz ≠ 1 → sz ≠ 2 → sz ≠ 4 → sz ≠ 8 →
    compileSchema [(nm, .prim .tInt (some sz) (some d))] =
      some (.mk baseBytes .unitT 32 44 0 [(nm.take 1, nm)]
        [.mk nm .int32 40 4 32 [] []], 44) := by
  intro sz nm d h1 h2 h4 h8
  unfold compileSchema buildTopKids buildPrimTop buildPrimNested
  simp only [defaultsOkKids, defaultsOk, Bool.and_self, if_true,
    Option.getD_some, if_neg h1, if_neg h2, if_neg h8]
  rfl

/-- Witness for C9 (amended): instantiated at size 3. -/
theorem int_size_out_of_range_amended_witness :
    compileSchema [([121], .prim .tInt (some 3) (some (.iv 5)))] =
      some (.mk baseBytes .unitT 32 44 0 [([121], [121])]
        [.mk [121] .int32 40 4 32 [] []], 44) := by
  have h := int_size_out_of_range_amended 3 [121] (.iv 5)
    (by decide) (by decide) (by decide) (by decide)
  exact h

/-! ### Path resolution (SCppObj::getElement, LocalCppObj::resolveName)

Both functions run the same scan (SCppObj.cpp:1088, LocalCppObj.cpp:16)
over the `(search key, full name)` pairs of the current composite: the
leading path segment is compared byte-wise against the stored key; when
the key is exhausted the segment must additionally equal the full name
(same length and same bytes) or the entry is skipped / the scan aborted;
when the comparison stops inside the key, a key byte greater than the
path byte aborts the scan (the table is assumed alphabetical).  A path
is modelled as its list of separator-free segments; the byte the C code
reads at the separator position is 46 (`.`) before the last segment and
0 (the terminator) at the last one. -/

/-- One scan over the (pair, child) table for the current segment.
`sepB` is the byte sitting right after the segment in the full path. -/
def scanEnts (seg : Name) (sepB : ℕ) :
    List ((Name × Name) × SNode) → Option SNode
  | [] => none
  | ((key, full), child) :: rest =>
    let j := lcpLen key seg
    if j = key.length then
      if seg.length ≠ full.length then scanEnts seg sepB rest
      else if full ≠ seg then none
      else some child
    else
      let pb := if j < seg.length then seg.getD j 0 else sepB
      if pb < key.getD j 0 then none else scanEnts seg sepB rest

/-- SCppObj::getElement on a segment path: scan the current node's
table; descend on an inner segment, return the child on the last one.
A primitive's table is empty (`names == NULL`), so any further path
returns none. -/
def getElementL : List Name → SNode → Option SNode
  | [], _ => none
  | seg :: rest, base =>
    match scanEnts seg (if rest.isEmpty then 0 else 46)
        (base.pairs.zip base.subs) with
    | none => none
    | some child => if rest.isEmpty then some child else getElementL rest child

/-! ### Order and common-prefix lemmas for the lookup-scan proofs -/

/-- Byte-wise lexicographic order on names (what `std::string <` and
the scan's early-abort comparison rely on). -/
abbrev nameLt (a b : Name) : Prop := List.Lex (· < ·) a b

theorem lexLt_irrefl (l : Name) : ¬ nameLt l l := by
  intro h
  induction l with
  | nil => cases h
  | cons a as ih =>
    cases h with
    | rel h1 => exact lt_irrefl a h1
    | cons h1 => exact ih h1

theorem lexLt_asymm : ∀ {a b : Name}, nameLt a b → nameLt b a → False := by
  intro a b h1
  induction h1 with
  | nil => intro h2; cases h2
  | rel h =>
    intro h2
    cases h2 with
    | rel h' => omega
    | cons h' => exact absurd h (lt_irrefl _)
  | cons h ih =>
    intro h2
    cases h2 with
    | rel h' => exact absurd h' (lt_irrefl _)
    | cons h' => exact ih h'

theorem lexLt_ne {a b : Name} (h : nameLt a b) : a ≠ b := by
  intro he
  subst he
  exact lexLt_irrefl a h

/-- A proper extension is lexicographically above its stem. -/
theorem lex_append_ne (a t : Name) (h : t ≠ []) : nameLt a (a ++ t) := by
  induction a with
  | nil =>
    cases t with
    | nil => exact absurd rfl h
    | cons c cs => exact List.Lex.nil
  | cons x as ih => exact List.Lex.cons ih

/-- Names with a common prefix of length `j` that differ at position
`j` are ordered by that byte. -/
theorem lex_common_lt : ∀ (j : ℕ) (a b : Name), nameLt a b →
    a.take j = b.take j → j < a.length → j < b.length →
    a.getD j 0 ≠ b.getD j 0 → a.getD j 0 < b.getD j 0 := by
  intro j
  induction j with
  | zero =>
    intro a b hlex _ ha hb hne
    cases a with
    | nil => simp at ha
    | cons x as =>
      cases b with
      | nil => simp at hb
      | cons y bs =>
        cases hlex with
        | rel h => simpa using h
        | cons h => simp at hne
  | succ n ih =>
    intro a b hlex htake ha hb hne
    cases a with
    | nil => simp at ha
    | cons x as =>
      cases b with
      | nil => simp at hb
      | cons y bs =>
        simp only [List.take_succ_cons, List.cons.injEq] at htake
        obtain ⟨rfl, htk⟩ := htake
        cases hlex with
        | rel h => exact absurd h (lt_irrefl _)
        | cons h =>
          simp only [List.getD_cons_succ] at hne ⊢
          exact ih as bs h htk (by simpa using ha) (by simpa using hb) hne

/-- Betweenness: a name lexicographically between two names that share
their first `m` bytes shares them as well. -/
theorem lex_between : ∀ (m : ℕ) (a b c : Name), nameLt a b → nameLt b c →
    a.take m = c.take m → b.take m = a.take m := by
  intro m
  induction m with
  | zero => intro a b c _ _ _; simp
  | succ n ih =>
    intro a b c hab hbc hac
    cases a with
    | nil =>
      cases c with
      | nil => cases hbc
      | cons z cs => simp at hac
    | cons x as =>
      cases c with
      | nil => cases hbc
      | cons z cs =>
        simp only [List.take_succ_cons, List.cons.injEq] at hac
        obtain ⟨rfl, htk⟩ := hac
        cases b with
        | nil => cases hab
        | cons y bs =>
          cases hab with
          | rel h1 =>
            cases hbc with
            | rel h2 => omega
            | cons h2 => exact absurd h1 (lt_irrefl _)
          | cons h1 =>
            cases hbc with
            | rel h2 => exact absurd h2 (lt_irrefl _)
            | cons h2 =>
              simp only [List.take_succ_cons, List.cons.injEq, true_and]
              exact ih as bs cs h1 h2 htk

theorem lcpLen_cons_eq (x : ℕ) (as bs : Name) :
    lcpLen (x :: as) (x :: bs) = lcpLen as bs + 1 := by
  simp [lcpLen]

theorem lcpLen_cons_ne {x y : ℕ} (h : x ≠ y) (as bs : Name) :
    lcpLen (x :: as) (y :: bs) = 0 := by
  simp [lcpLen, h]

theorem lcpLen_le_left : ∀ (a b : Name), lcpLen a b ≤ a.length := by
  intro a
  induction a with
  | nil => intro b; cases b <;> simp [lcpLen]
  | cons x as ih =>
    intro b
    cases b with
    | nil => simp [lcpLen]
    | cons y bs =>
      by_cases h : x = y
      · subst h; rw [lcpLen_cons_eq]; simpa using ih bs
      · rw [lcpLen_cons_ne h]; omega

theorem lcpLen_le_right : ∀ (a b : Name), lcpLen a b ≤ b.length := by
  intro a
  induction a with
  | nil => intro b; cases b <;> simp [lcpLen]
  | cons x as ih =>
    intro b
    cases b with
    | nil => simp [lcpLen]
    | cons y bs =>
      by_cases h : x = y
      · subst h; rw [lcpLen_cons_eq]; simpa using ih bs
      · rw [lcpLen_cons_ne h]; omega

theorem take_lcpLen_eq : ∀ (a b : Name),
    a.take (lcpLen a b) = b.take (lcpLen a b) := by
  intro a
  induction a with
  | nil => intro b; simp [lcpLen]
  | cons x as ih =>
    intro b
    cases b with
    | nil => simp [lcpLen]
    | cons y bs =>
      by_cases h : x = y
      · subst h; rw [lcpLen_cons_eq]; simp [ih bs]
      · rw [lcpLen_cons_ne h]; simp

theorem lcpLen_getD_ne : ∀ (a b : Name), lcpLen a b < a.length →
    lcpLen a b < b.length → a.getD (lcpLen a b) 0 ≠ b.getD (lcpLen a b) 0 := by
  intro a
  induction a with
  | nil => intro b h _; simp [lcpLen] at h
  | cons x as ih =>
    intro b ha hb
    cases b with
    | nil => simp at hb
    | cons y bs =>
      by_cases h : x = y
      · subst h
        rw [lcpLen_cons_eq] at ha hb ⊢
        simp only [List.getD_cons_succ]
        exact ih bs (by simpa using ha) (by simpa using hb)
      · rw [lcpLen_cons_ne h]
        simpa using h

theorem lcpLen_eq_left_iff : ∀ (a b : Name), lcpLen a b = a.length ↔ a <+: b := by
  intro a
  induction a with
  | nil =>
    intro b
    cases b <;> simp [lcpLen]
  | cons x as ih =>
    intro b
    cases b with
    | nil =>
      simp only [lcpLen, List.length_cons]
      constructor
      · intro h; omega
      · intro h
        have := h.length_le
        simp at this
    | cons y bs =>
      by_cases h : x = y
      · subst h
        rw [lcpLen_cons_eq, List.cons_prefix_cons]
        simp [ih bs]
      · rw [lcpLen_cons_ne h, List.cons_prefix_cons]
        simp [h]

theorem take_eq_le_lcpLen : ∀ (m : ℕ) (a b : Name), m ≤ a.length →
    a.take m = b.take m → m ≤ lcpLen a b := by
  intro m
  induction m with
  | zero => intro a b _ _; omega
  | succ n ih =>
    intro a b hm htake
    cases a with
    | nil => simp at hm
    | cons x as =>
      cases b with
      | nil => simp at htake
      | cons y bs =>
        simp only [List.take_succ_cons, List.cons.injEq] at htake
        obtain ⟨rfl, htk⟩ := htake
        rw [lcpLen_cons_eq]
        have := ih as bs (by simpa using hm) htk
        omega

theorem take_succ_eq_parts : ∀ (j : ℕ) (a b : Name),
    a.take (j + 1) = b.take (j + 1) → j < a.length →
    j < b.length ∧ a.getD j 0 = b.getD j 0 := by
  intro j
  induction j with
  | zero =>
    intro a b h ha
    cases a with
    | nil => simp at ha
    | cons x as =>
      cases b with
      | nil => simp at h
      | cons y bs =>
        simp only [List.take_succ_cons, List.take_zero, List.cons.injEq] at h
        simp [h.1]
  | succ n ih =>
    intro a b h ha
    cases a with
    | nil => simp at ha
    | cons x as =>
      cases b with
      | nil => simp at h
      | cons y bs =>
        simp only [List.take_succ_cons, List.cons.injEq] at h
        obtain ⟨rfl, htk⟩ := h
        have := ih as bs htk (by simpa using ha)
        simp only [List.length_cons, List.getD_cons_succ]
        exact ⟨by omega, this.2⟩

theorem take_pfx (n : ℕ) (l : Name) : l.take n <+: l := List.take_prefix n l

theorem pfx_take {a b : Name} (h : a <+: b) {j : ℕ} (hj : j ≤ a.length) :
    b.take j = a.take j := by
  obtain ⟨t, rfl⟩ := h
  rw [List.take_append_eq_append_take]
  have : j - a.length = 0 := by omega
  rw [this]
  simp

theorem pfx_getD {a b : Name} (h : a <+: b) {j : ℕ} (hj : j < a.length) :
    b.getD j 0 = a.getD j 0 := by
  obtain ⟨t, rfl⟩ := h
  rw [List.getD_eq_getElem?_getD, List.getElem?_append, if_pos hj,
    ← List.getD_eq_getElem?_getD]


/-- The stop position of the middle-entry comparison loop lies inside
the current name, and at it the current byte matches neither
neighbour. -/
theorem midJ_spec : ∀ (c p n : Name), midJ c p n ≤ c.length ∧
    (midJ c p n < c.length →
      ¬(midJ c p n < p.length ∧ c.getD (midJ c p n) 0 = p.getD (midJ c p n) 0) ∧
      ¬(midJ c p n < n.length ∧ c.getD (midJ c p n) 0 = n.getD (midJ c p n) 0)) := by
  intro c p n
  induction c, p, n using midJ.induct with
  | case1 c cs p ps n ns h ih =>
    simp only [midJ, if_pos h, List.length_cons, List.getD_cons_succ]
    obtain ⟨ih1, ih2⟩ := ih
    refine ⟨by omega, ?_⟩
    intro hlt
    obtain ⟨a1, a2⟩ := ih2 (by omega)
    constructor
    · rintro ⟨hl, he⟩
      exact a1 ⟨by omega, he⟩
    · rintro ⟨hl, he⟩
      exact a2 ⟨by omega, he⟩
  | case2 c cs p ps n ns h =>
    simp only [midJ, if_neg h, List.length_cons, List.getD_cons_zero]
    push_neg at h
    refine ⟨by omega, ?_⟩
    intro _
    exact ⟨fun he => h.1 he.2, fun he => h.2 he.2⟩
  | case3 cs p ps ih =>
    simp only [midJ, eq_self_iff_true, if_true, List.length_cons,
      List.length_nil, List.getD_cons_succ]
    obtain ⟨ih1, ih2⟩ := ih
    refine ⟨by omega, ?_⟩
    intro hlt
    obtain ⟨a1, _⟩ := ih2 (by omega)
    constructor
    · rintro ⟨hl, he⟩
      exact a1 ⟨by omega, he⟩
    · rintro ⟨hl, _⟩
      omega
  | case4 c cs p ps h =>
    simp only [midJ, if_neg h, List.length_cons, List.length_nil,
      List.getD_cons_zero]
    refine ⟨by omega, ?_⟩
    intro _
    exact ⟨fun he => h he.2, fun he => by omega⟩
  | case5 cs n ns ih =>
    simp only [midJ, eq_self_iff_true, if_true, List.length_cons,
      List.length_nil, List.getD_cons_succ]
    obtain ⟨ih1, ih2⟩ := ih
    refine ⟨by omega, ?_⟩
    intro hlt
    obtain ⟨_, a2⟩ := ih2 (by omega)
    constructor
    · rintro ⟨hl, _⟩
      omega
    · rintro ⟨hl, he⟩
      exact a2 ⟨by omega, he⟩
  | case6 c cs n ns h =>
    simp only [midJ, if_neg h, List.length_cons, List.length_nil,
      List.getD_cons_zero]
    refine ⟨by omega, ?_⟩
    intro _
    exact ⟨fun he => by omega, fun he => h he.2⟩
  | case7 t x x1 h1 h2 h3 =>
    rcases t with _ | ⟨c, cs⟩
    · refine ⟨by simp [midJ], ?_⟩
      intro hlt
      simp [midJ] at hlt
    · rcases x with _ | ⟨p, ps⟩
      · rcases x1 with _ | ⟨n, ns⟩
        · refine ⟨by simp [midJ], ?_⟩
          intro _
          simp [midJ]
        · exact (h3 c cs n ns rfl rfl rfl).elim
      · rcases x1 with _ | ⟨n, ns⟩
        · exact (h2 c cs p ps rfl rfl rfl).elim
        · exact (h1 c cs p ps n ns rfl rfl rfl).elim

theorem acroOf_pfx (cur : Name) (j : ℕ) : acroOf cur j <+: cur := by
  unfold acroOf
  split
  · exact take_pfx _ _
  · exact List.prefix_refl cur

theorem acroAt_pfx (ns : List Name) (i : ℕ) : acroAt ns i <+: ns.getD i [] := by
  unfold acroAt
  split_ifs with h1 h2 h3
  · exact take_pfx _ _
  · rw [h2]; exact acroOf_pfx _ _
  · rw [h3]; exact acroOf_pfx _ _
  · exact acroOf_pfx _ _

theorem sorted_getD_lt {ns : List Name} (hs : List.Pairwise nameLt ns)
    {i t : ℕ} (hi : i < ns.length) (ht : t < ns.length) (hit : i < t) :
    nameLt (ns.getD i []) (ns.getD t []) := by
  rw [List.getD_eq_getElem?_getD, List.getD_eq_getElem?_getD,
    List.getElem?_eq_getElem hi, List.getElem?_eq_getElem ht]
  simpa using List.pairwise_iff_getElem.mp hs i t hi ht hit

theorem acro_take_eq {cur b : Name} {j : ℕ} (hp : acroOf cur j <+: b)
    (hj : j < cur.length) : b.take (j + 1) = cur.take (j + 1) ∧ j + 1 ≤ b.length := by
  unfold acroOf at hp
  rw [if_pos hj] at hp
  have hkl : (cur.take (j + 1)).length = j + 1 := by
    rw [List.length_take]; omega
  have hbl : j + 1 ≤ b.length := hkl ▸ hp.length_le
  have h1 : b.take (j + 1) = (cur.take (j + 1)).take (j + 1) :=
    pfx_take hp (by omega)
  rw [List.take_take, min_self] at h1
  exact ⟨h1, hbl⟩

/-- The central disambiguation property of the buildNames keys: on a
sorted list of distinct names, entry `i`'s search key is never a prefix
of a DIFFERENT name of the same length as entry `i`'s own name.  (This
is what keeps the scan's full-name verification from aborting before it
reaches its target.) -/
theorem acroAt_no_false_match (ns : List Name)
    (hs : List.Pairwise nameLt ns) (i t : ℕ) (hi : i < ns.length)
    (ht : t < ns.length) (hne : i ≠ t)
    (hp : acroAt ns i <+: ns.getD t [])
    (hlen : (ns.getD i []).length = (ns.getD t []).length) : False := by
  have hlen2 : 2 ≤ ns.length := by omega
  have hcurne : ns.getD i [] ≠ ns.getD t [] := by
    rcases Nat.lt_or_ge i t with h | h
    · exact lexLt_ne (sorted_getD_lt hs hi ht h)
    · exact fun he => lexLt_ne (sorted_getD_lt hs ht hi (by omega)) he.symm
  unfold acroAt at hp
  rw [if_neg (by omega)] at hp
  by_cases hi0 : i = 0
  · subst hi0
    rw [if_pos rfl] at hp
    set cur := ns.getD 0 [] with hc
    set n1 := ns.getD 1 [] with hn1
    set j := lcpLen cur n1 with hj
    by_cases hjlt : j < cur.length
    · obtain ⟨htk, hbl⟩ := acro_take_eq hp hjlt
      have hnext : n1.take (j + 1) = cur.take (j + 1) := by
        rcases Nat.lt_or_ge 1 t with h1t | h1t
        · exact lex_between (j + 1) cur n1 (ns.getD t [])
            (sorted_getD_lt hs hi (by omega) (by omega))
            (sorted_getD_lt hs (by omega) ht h1t) htk.symm
        · have ht1 : t = 1 := by omega
          subst ht1
          rw [hn1]
          exact htk
      have : j + 1 ≤ lcpLen cur n1 :=
        take_eq_le_lcpLen (j + 1) cur n1 (by omega) hnext.symm
      omega
    · have hje : j = cur.length := by
        have := lcpLen_le_left cur n1
        omega
      unfold acroOf at hp
      rw [if_neg hjlt] at hp
      exact hcurne (hp.eq_of_length hlen)
  · by_cases hil : i = ns.length - 1
    · rw [if_neg hi0, if_pos hil] at hp
      set cur := ns.getD i [] with hc
      set pv := ns.getD (i - 1) [] with hpv
      set j := lcpLen cur pv with hj
      by_cases hjlt : j < cur.length
      · obtain ⟨htk, hbl⟩ := acro_take_eq hp hjlt
        have hprev : pv.take (j + 1) = cur.take (j + 1) := by
          have htlt : t < i := by omega
          rcases Nat.lt_or_ge t (i - 1) with h1t | h1t
          · have := lex_between (j + 1) (ns.getD t []) pv cur
              (sorted_getD_lt hs ht (by omega) h1t)
              (sorted_getD_lt hs (by omega) hi (by omega)) htk
            rw [this, htk]
          · have ht1 : t = i - 1 := by omega
            subst ht1
            rw [hpv]
            exact htk
        have : j + 1 ≤ lcpLen cur pv :=
          take_eq_le_lcpLen (j + 1) cur pv (by omega) hprev.symm
        omega
      · unfold acroOf at hp
        rw [if_neg hjlt] at hp
        exact hcurne (hp.eq_of_length hlen)
    · rw [if_neg hi0, if_neg hil] at hp
      set cur := ns.getD i [] with hc
      set pv := ns.getD (i - 1) [] with hpv
      set nx := ns.getD (i + 1) [] with hnx
      set j := midJ cur pv nx with hj
      obtain ⟨hle, hstop⟩ := midJ_spec cur pv nx
      by_cases hjlt : j < cur.length
      · obtain ⟨hstp, hstn⟩ := hstop hjlt
        obtain ⟨htk, hbl⟩ := acro_take_eq hp hjlt
        rcases Nat.lt_or_ge i t with hit | hit
        · have hnext : nx.take (j + 1) = cur.take (j + 1) := by
            rcases Nat.lt_or_ge (i + 1) t with h1t | h1t
            · exact lex_between (j + 1) cur nx (ns.getD t [])
                (sorted_getD_lt hs hi (by omega) (by omega))
                (sorted_getD_lt hs (by omega) ht h1t) htk.symm
            · have ht1 : t = i + 1 := by omega
              subst ht1
              rw [hnx]
              exact htk
          obtain ⟨hl2, he2⟩ := take_succ_eq_parts j cur nx hnext.symm hjlt
          exact hstn ⟨hl2, he2⟩
        · have htlt : t < i := by omega
          have hprev : pv.take (j + 1) = cur.take (j + 1) := by
            rcases Nat.lt_or_ge t (i - 1) with h1t | h1t
            · have := lex_between (j + 1) (ns.getD t []) pv cur
                (sorted_getD_lt hs ht (by omega) h1t)
                (sorted_getD_lt hs (by omega) hi (by omega)) htk
              rw [this, htk]
            · have ht1 : t = i - 1 := by omega
              subst ht1
              rw [hpv]
              exact htk
          obtain ⟨hl2, he2⟩ := take_succ_eq_parts j cur pv hprev.symm hjlt
          exact hstp ⟨hl2, he2⟩
      · obtain ⟨hle2, _⟩ := midJ_spec cur pv nx
        unfold acroOf at hp
        rw [if_neg hjlt] at hp
        exact hcurne (hp.eq_of_length hlen)

/-- Default node for list indexing. -/
def nodeDefault : SNode := .mk [] .unitT 0 0 0 [] []

/-- Well-formedness of a lookup table: each search key is a prefix of
its full name, full names are strictly sorted, and no key is a prefix
of a different same-length full name. -/
def PairsWF (ps : List (Name × Name)) : Prop :=
  (∀ e ∈ ps, e.1 <+: e.2) ∧
  List.Pairwise (fun a b => nameLt a.2 b.2) ps ∧
  (∀ a ∈ ps, ∀ b ∈ ps, a.2 ≠ b.2 → a.1 <+: b.2 → a.2.length ≠ b.2.length)

/-- An entry strictly below the target segment neither matches nor
aborts the scan. -/
theorem scan_skip {key full : Name} {c : SNode} {seg : Name} {sepB : ℕ}
    {rest : List ((Name × Name) × SNode)}
    (h1 : key <+: full) (hlex : nameLt full seg)
    (h4 : key <+: seg → full.length ≠ seg.length) :
    scanEnts seg sepB (((key, full), c) :: rest) = scanEnts seg sepB rest := by
  simp only [scanEnts]
  by_cases hj : lcpLen key seg = key.length
  · have hkp : key <+: seg := (lcpLen_eq_left_iff key seg).mp hj
    rw [if_pos hj, if_pos (Ne.symm (h4 hkp))]
  · have hjlt : lcpLen key seg < key.length :=
      lt_of_le_of_ne (lcpLen_le_left _ _) hj
    rw [if_neg hj]
    by_cases hsl : lcpLen key seg < seg.length
    · have hkf : full.getD (lcpLen key seg) 0 = key.getD (lcpLen key seg) 0 :=
        pfx_getD h1 hjlt
      have htkf : full.take (lcpLen key seg) = seg.take (lcpLen key seg) := by
        rw [pfx_take h1 (le_of_lt hjlt)]
        exact take_lcpLen_eq key seg
      have hne : full.getD (lcpLen key seg) 0 ≠ seg.getD (lcpLen key seg) 0 := by
        rw [hkf]
        exact lcpLen_getD_ne key seg hjlt hsl
      have hflen : lcpLen key seg < full.length :=
        lt_of_lt_of_le hjlt h1.length_le
      have hlt := lex_common_lt (lcpLen key seg) full seg hlex htkf hflen hsl hne
      rw [if_pos hsl, if_neg (by omega)]
    · have hje : lcpLen key seg = seg.length := by
        have := lcpLen_le_right key seg
        omega
      have hsegp : seg <+: key := by
        have := (take_lcpLen_eq key seg).symm
        rw [hje, List.take_length] at this
        rw [this]
        exact take_pfx _ _
      have hsegf : seg <+: full := hsegp.trans h1
      obtain ⟨tt, rfl⟩ := hsegf
      have htne : tt ≠ [] := by
        intro he
        subst he
        exact lexLt_ne hlex (by simp)
      exact absurd hlex (fun hl => lexLt_asymm hl (lex_append_ne seg tt htne))

/-- The entry whose full name equals the segment is returned. -/
theorem scan_found {key full : Name} {c : SNode} {seg : Name} {sepB : ℕ}
    {rest : List ((Name × Name) × SNode)}
    (h1 : key <+: full) (he : full = seg) :
    scanEnts seg sepB (((key, full), c) :: rest) = some c := by
  subst he
  have hj : lcpLen key full = key.length := (lcpLen_eq_left_iff _ _).mpr h1
  simp only [scanEnts]
  rw [if_pos hj, if_neg (by simp), if_neg (by simp)]

/-- On a well-formed table the scan returns exactly the child whose
full name equals the segment. -/
theorem scanEnts_finds : ∀ (pairs : List (Name × Name)) (subs : List SNode)
    (seg : Name) (sepB : ℕ) (i : ℕ), PairsWF pairs →
    i < pairs.length → i < subs.length →
    (pairs.getD i ([], [])).2 = seg →
    scanEnts seg sepB (pairs.zip subs) = some (subs.getD i nodeDefault) := by
  intro pairs
  induction pairs with
  | nil =>
    intro subs seg sepB i _ hi
    simp at hi
  | cons p ps ih =>
    intro subs seg sepB i hwf hi his hseg
    obtain ⟨w1, w2, w3⟩ := hwf
    cases subs with
    | nil => simp at his
    | cons s ss =>
      cases i with
      | zero =>
        simp only [List.getD_cons_zero] at hseg ⊢
        rcases p with ⟨key, full⟩
        simp only [List.zip_cons_cons]
        exact scan_found (w1 (key, full) (by simp)) hseg
      | succ k =>
        simp only [List.getD_cons_succ] at hseg ⊢
        have hkps : k < ps.length := by simpa using hi
        have htmem : ps.getD k ([], []) ∈ ps := by
          rw [List.getD_eq_getElem?_getD, List.getElem?_eq_getElem hkps]
          exact List.getElem_mem hkps
        have hlex : nameLt p.2 seg := by
          rw [← hseg]
          exact (List.pairwise_cons.mp w2).1 _ htmem
        have hne : p.2 ≠ seg := lexLt_ne hlex
        have h4 : p.1 <+: seg → p.2.length ≠ seg.length := by
          intro hpk
          rw [← hseg] at hpk hne ⊢
          exact w3 p (by simp) _ (List.mem_cons_of_mem _ htmem) hne hpk
        have hwf2 : PairsWF ps :=
          ⟨fun e he => w1 e (List.mem_cons_of_mem _ he),
            (List.pairwise_cons.mp w2).2,
            fun a ha b hb =>
              w3 a (List.mem_cons_of_mem _ ha) b (List.mem_cons_of_mem _ hb)⟩
        have hskip : scanEnts seg sepB (((p.1, p.2), s) :: ps.zip ss) =
            scanEnts seg sepB (ps.zip ss) :=
          scan_skip (w1 (p.1, p.2) (by simp)) hlex h4
        rcases p with ⟨key, full⟩
        simp only [List.zip_cons_cons]
        rw [hskip]
        exact ih ss seg sepB k hwf2 hkps (by simpa using his) hseg

/-- Soundness of the scan: whatever it returns is a child whose stored
full name equals the segment exactly (the scan never accepts an
abbreviation). -/
theorem scanEnts_sound : ∀ (ents : List ((Name × Name) × SNode)) (seg : Name)
    (sepB : ℕ) (c : SNode), scanEnts seg sepB ents = some c →
    ∃ key, ((key, seg), c) ∈ ents := by
  intro ents
  induction ents with
  | nil =>
    intro seg sepB c h
    simp [scanEnts] at h
  | cons e rest ih =>
    intro seg sepB c h
    rcases e with ⟨⟨key, full⟩, ch⟩
    simp only [scanEnts] at h
    by_cases hj : lcpLen key seg = key.length
    · rw [if_pos hj] at h
      by_cases hl : seg.length ≠ full.length
      · rw [if_pos hl] at h
        obtain ⟨k2, hm⟩ := ih seg sepB c h
        exact ⟨k2, List.mem_cons_of_mem _ hm⟩
      · rw [if_neg hl] at h
        by_cases hf : full ≠ seg
        · rw [if_pos hf] at h
          cases h
        · rw [if_neg hf] at h
          push_neg at hf
          obtain rfl := hf
          obtain rfl : ch = c := by injection h
          exact ⟨key, by simp⟩
    · rw [if_neg hj] at h
      by_cases hb : (if lcpLen key seg < seg.length
          then seg.getD (lcpLen key seg) 0 else sepB) < key.getD (lcpLen key seg) 0
      · rw [if_pos hb] at h
        cases h
      · rw [if_neg hb] at h
        obtain ⟨k2, hm⟩ := ih seg sepB c h
        exact ⟨k2, List.mem_cons_of_mem _ hm⟩

/-- Tree-level well-formedness: every composite's lookup table is
well-formed and aligned with its children. -/
inductive WFTree : SNode → Prop where
  | mk : ∀ (nd : SNode), PairsWF nd.pairs → nd.pairs.length = nd.subs.length →
      (∀ c ∈ nd.subs, WFTree c) → WFTree nd

/-- The path of a node in a tree: the full names stored in the lookup
tables along the descent. -/
inductive Reach : SNode → List Name → SNode → Prop where
  | here : ∀ n, Reach n [] n
  | step : ∀ (base : SNode) (i : ℕ), i < base.pairs.length →
      i < base.subs.length → ∀ (p : List Name) (tgt : SNode),
      Reach (base.subs.getD i nodeDefault) p tgt →
      Reach base ((base.pairs.getD i ([], [])).2 :: p) tgt

theorem Reach.nil_eq {a b : SNode} (h : Reach a [] b) : b = a := by
  cases h
  rfl

/-- Resolution follows every reachable path on a well-formed tree. -/
theorem reach_resolves : ∀ (segs : List Name) (root tgt : SNode),
    WFTree root → Reach root segs tgt → segs ≠ [] →
    getElementL segs root = some tgt := by
  intro segs
  induction segs with
  | nil => intro root tgt _ _ hne; exact absurd rfl hne
  | cons seg rest ih =>
    intro root tgt hwf hr _
    cases hr with
    | step _ i hi his p tgt hr2 =>
      obtain ⟨_, hpwf, hlen, hsub⟩ := hwf
      unfold getElementL
      rw [scanEnts_finds root.pairs root.subs _ _ i hpwf hi his rfl]
      by_cases hp : rest.isEmpty
      · have hpe : rest = [] := by
          cases rest
          · rfl
          · simp at hp
        subst hpe
        simp [hr2.nil_eq]
      · have hpe : rest ≠ [] := by
          cases rest
          · simp at hp
          · simp
        show (if rest.isEmpty = true then some (root.subs.getD i nodeDefault)
          else getElementL rest (root.subs.getD i nodeDefault)) = some tgt
        rw [if_neg hp]
        exact ih _ tgt
          (hsub _ (by
            rw [List.getD_eq_getElem?_getD, List.getElem?_eq_getElem his]
            exact List.getElem_mem his)) hr2 hpe

theorem buildPairs_length (ns : List Name) :
    (buildPairs ns).length = ns.length := by
  simp [buildPairs, buildAcros]

theorem buildPairs_getElem (ns : List Name) (i : ℕ)
    (h : i < (buildPairs ns).length) :
    (buildPairs ns)[i] = (acroAt ns i, ns.getD i []) := by
  have hi : i < ns.length := by rwa [buildPairs_length] at h
  unfold buildPairs buildAcros
  rw [List.getElem_zip, List.getElem_map, List.getElem_range,
    List.getD_eq_getElem?_getD, List.getElem?_eq_getElem hi]
  rfl

/-- The lookup table a sorted name list compiles to is well-formed. -/
theorem buildPairs_wf (ns : List Name) (hs : List.Pairwise nameLt ns) :
    PairsWF (buildPairs ns) := by
  have hmem : ∀ e ∈ buildPairs ns, ∃ i, ∃ h : i < ns.length,
      e = (acroAt ns i, ns.getD i []) := by
    intro e he
    obtain ⟨i, hilt, hget⟩ := List.mem_iff_getElem.mp he
    have hi : i < ns.length := by rwa [buildPairs_length] at hilt
    exact ⟨i, hi, by rw [← hget, buildPairs_getElem]⟩
  refine ⟨?_, ?_, ?_⟩
  · intro e he
    obtain ⟨i, hi, rfl⟩ := hmem e he
    exact acroAt_pfx ns i
  · rw [List.pairwise_iff_getElem]
    intro i j hi hj hij
    rw [buildPairs_getElem ns i hi, buildPairs_getElem ns j hj]
    exact sorted_getD_lt hs (by rwa [buildPairs_length] at hi)
      (by rwa [buildPairs_length] at hj) hij
  · intro a ha b hb hne hpfx
    obtain ⟨i, hi, rfl⟩ := hmem a ha
    obtain ⟨t, ht, rfl⟩ := hmem b hb
    intro hlen
    have hit : i ≠ t := by
      intro he
      subst he
      exact hne rfl
    exact acroAt_no_false_match ns hs i t hi ht hit hpfx hlen

/-- The counting-order table of an array with at most ten children is
well-formed (all names are single digits, so counting order is also
alphabetical order). -/
theorem arrPairs_wf (n : ℕ) (h : n ≤ 10) : PairsWF (arrPairs n) := by
  interval_cases n <;> (unfold PairsWF; refine ⟨by decide, by decide, by decide⟩)

theorem arrPairs_length (n : ℕ) : (arrPairs n).length = n := by
  simp [arrPairs]

/-! ### Well-formedness of compiled lookup tables

The scan lemmas above need every composite's table to be sorted with
minimal keys.  buildNames produces such a table whenever the name list
it receives is sorted; unit children are key-sorted by construction
(the schema map is ordered), while buildArrayNames emits counting-order
names, which are sorted only while the array has at most ten children
(a two-digit "10" sorts before "2" but is stored after "9"). -/

theorem PairsWF_nil : PairsWF ([] : List (Name × Name)) :=
  ⟨by simp, by simp, by simp⟩

theorem mkLeaf_wf (n : Name) (t : SLType) (off sz tm : ℕ) :
    WFTree (.mk n t off sz tm [] []) := by
  refine WFTree.mk _ ?_ ?_ ?_
  · simpa [SNode.pairs] using PairsWF_nil
  · rfl
  · intro c hc
    simp [SNode.subs] at hc

theorem buildPrimNested_wf (nm : Name) (t : PType) (szOpt : Option ℤ) (c : Cur) :
    WFTree (buildPrimNested nm t szOpt c).1 := by
  cases t <;> simp only [buildPrimNested] <;> (try split_ifs) <;>
    exact mkLeaf_wf _ _ _ _ _

theorem buildPrimTop_wf (nm : Name) (t : PType) (szOpt : Option ℤ) (c : Cur) :
    WFTree (buildPrimTop nm t szOpt c).1 := by
  cases t <;> simp only [buildPrimTop] <;> first
    | exact mkLeaf_wf _ _ _ _ _
    | exact buildPrimNested_wf _ _ _ _

theorem buildUnitKids_length : ∀ (cs : List (Name × SpecT)) (c : Cur),
    (buildUnitKids cs c).1.length = cs.length := by
  intro cs
  induction cs with
  | nil => intro c; simp [buildUnitKids]
  | cons x xs ih =>
    intro c
    rcases x with ⟨n, sp⟩
    simp only [buildUnitKids, List.length_cons, ih]

theorem buildArrKids_length : ∀ (cs : List SpecT) (i : ℕ) (c : Cur),
    (buildArrKids cs i c).1.length = cs.length := by
  intro cs
  induction cs with
  | nil => intro i c; simp [buildArrKids]
  | cons sp xs ih =>
    intro i c
    simp only [buildArrKids, List.length_cons, ih]

theorem buildTopKids_length : ∀ (cs : List (Name × SpecT)) (c : Cur),
    (buildTopKids cs c).1.length = cs.length := by
  intro cs
  induction cs with
  | nil => intro c; simp [buildTopKids]
  | cons x xs ih =>
    intro c
    rcases x with ⟨n, sp⟩
    simp only [buildTopKids, List.length_cons, ih]

/-- Schema shapes on which buildNames' sortedness assumption holds:
unit children are key-sorted and arrays have at most ten children (so
the counting-order names of buildArrayNames are alphabetical too). -/
inductive WFSpec : SpecT → Prop where
  | prim : ∀ (t : PType) (sz : Option ℤ) (d : Option DVal),
      WFSpec (.prim t sz d)
  | unitW : ∀ (cs : List (Name × SpecT)),
      List.Pairwise nameLt (cs.map Prod.fst) →
      (∀ x ∈ cs, WFSpec x.2) → WFSpec (.unit cs)
  | arrW : ∀ (cs : List SpecT), cs.length ≤ 10 →
      (∀ x ∈ cs, WFSpec x) → WFSpec (.arr cs)

theorem buildUnitKids_wf_of : ∀ (cs : List (Name × SpecT)),
    (∀ x ∈ cs, ∀ (nm : Name) (c : Cur), WFTree (buildSpec1 nm x.2 c).1) →
    ∀ (c : Cur), ∀ nd ∈ (buildUnitKids cs c).1, WFTree nd := by
  intro cs
  induction cs with
  | nil =>
    intro _ c nd hmem
    simp [buildUnitKids] at hmem
  | cons x xs ih =>
    intro hall c nd hmem
    rcases x with ⟨n, sp⟩
    simp only [buildUnitKids] at hmem
    rcases List.mem_cons.mp hmem with he | hm
    · subst he
      exact hall (n, sp) (by simp) n c
    · exact ih (fun y hy => hall y (List.mem_cons_of_mem _ hy)) _ nd hm

theorem buildArrKids_wf_of : ∀ (cs : List SpecT),
    (∀ x ∈ cs, ∀ (nm : Name) (c : Cur), WFTree (buildSpec1 nm x c).1) →
    ∀ (i : ℕ) (c : Cur), ∀ nd ∈ (buildArrKids cs i c).1, WFTree nd := by
  intro cs
  induction cs with
  | nil =>
    intro _ i c nd hmem
    simp [buildArrKids] at hmem
  | cons sp xs ih =>
    intro hall i c nd hmem
    simp only [buildArrKids] at hmem
    rcases List.mem_cons.mp hmem with he | hm
    · subst he
      exact hall sp (by simp) (decBytes i) c
    · exact ih (fun y hy => hall y (List.mem_cons_of_mem _ hy)) _ _ nd hm

/-- Every node buildUnit / buildArray produce from a well-formed spec
carries a well-formed lookup table. -/
theorem buildSpec1_wf : ∀ (spec : SpecT), WFSpec spec →
    ∀ (nm : Name) (c : Cur), WFTree (buildSpec1 nm spec c).1 := by
  intro spec hw
  induction hw with
  | prim t sz d =>
    intro nm c
    simp only [buildSpec1]
    exact buildPrimNested_wf nm t sz c
  | unitW cs2 hsort hx ih =>
    intro nm c
    simp only [buildSpec1]
    refine WFTree.mk _ ?_ ?_ ?_
    · simp only [SNode.pairs]
      exact buildPairs_wf _ hsort
    · simp only [SNode.pairs, SNode.subs]
      rw [buildPairs_length, List.length_map, buildUnitKids_length]
    · intro ch hch
      simp only [SNode.subs] at hch
      exact buildUnitKids_wf_of cs2 ih c ch hch
  | arrW cs2 hlen hx ih =>
    intro nm c
    simp only [buildSpec1]
    refine WFTree.mk _ ?_ ?_ ?_
    · simp only [SNode.pairs]
      exact arrPairs_wf _ hlen
    · simp only [SNode.pairs, SNode.subs]
      rw [arrPairs_length, buildArrKids_length]
    · intro ch hch
      simp only [SNode.subs] at hch
      exact buildArrKids_wf_of cs2 ih 0 c ch hch

theorem buildTopKids_wf_of : ∀ (cs : List (Name × SpecT)),
    (∀ x ∈ cs, WFSpec x.2) →
    ∀ (c : Cur), ∀ nd ∈ (buildTopKids cs c).1, WFTree nd := by
  intro cs
  induction cs with
  | nil =>
    intro _ c nd hmem
    simp [buildTopKids] at hmem
  | cons x xs ih =>
    intro hall c nd hmem
    rcases x with ⟨n, sp⟩
    simp only [buildTopKids] at hmem
    rcases List.mem_cons.mp hmem with he | hm
    · subst he
      cases sp with
      | prim t sz d => exact buildPrimTop_wf n t sz c
      | unit cs2 => exact buildSpec1_wf _ (hall (n, .unit cs2) (by simp)) n c
      | arr cs2 => exact buildSpec1_wf _ (hall (n, .arr cs2) (by simp)) n c
    · exact ih (fun y hy => hall y (List.mem_cons_of_mem _ hy)) _ nd hm

theorem fixupL_eq_map (st : Starts) : ∀ (l : List SNode),
    fixupL st l = l.map (fixupN st) := by
  intro l
  induction l with
  | nil => simp [fixupL]
  | cons x xs ih => simp [fixupL, ih]

/-- The phase-2 offset fixup rewrites only primitive offsets; it keeps
every lookup table and the tree shape, hence well-formedness. -/
theorem fixupN_wf (st : Starts) : ∀ (nd : SNode), WFTree nd →
    WFTree (fixupN st nd) := by
  intro nd hw
  induction hw with
  | mk nd hp hl hsub ih =>
    cases nd with
    | mk n t off sz tm ps ss =>
      simp only [SNode.pairs, SNode.subs] at hp hl hsub ih
      cases t
      case unitT =>
        simp only [fixupN]
        refine WFTree.mk _ ?_ ?_ ?_
        · simpa [SNode.pairs] using hp
        · simp only [SNode.pairs, SNode.subs, fixupL_eq_map, List.length_map]
          exact hl
        · intro ch hch
          simp only [SNode.subs, fixupL_eq_map, List.mem_map] at hch
          obtain ⟨x, hx, rfl⟩ := hch
          exact ih x hx
      case arrT =>
        simp only [fixupN]
        refine WFTree.mk _ ?_ ?_ ?_
        · simpa [SNode.pairs] using hp
        · simp only [SNode.pairs, SNode.subs, fixupL_eq_map, List.length_map]
          exact hl
        · intro ch hch
          simp only [SNode.subs, fixupL_eq_map, List.mem_map] at hch
          obtain ⟨x, hx, rfl⟩ := hch
          exact ih x hx
      all_goals
        simp only [fixupN]
      all_goals
        exact WFTree.mk _ (by simpa [SNode.pairs] using hp)
          (by simpa [SNode.pairs, SNode.subs] using hl)
          (by intro ch hch; exact hsub ch (by simpa [SNode.subs] using hch))

/-- A successfully compiled schema with sorted top-level keys and
well-formed composites yields a tree of well-formed lookup tables. -/
theorem compileSchema_wf (cs : List (Name × SpecT)) (root : SNode) (S : ℕ)
    (hsort : List.Pairwise nameLt (cs.map Prod.fst))
    (hspec : ∀ x ∈ cs, WFSpec x.2)
    (hc : compileSchema cs = some (root, S)) : WFTree root := by
  unfold compileSchema at hc
  by_cases hd : defaultsOkKids cs = true
  · rw [if_pos hd] at hc
    simp only [Option.some.injEq, Prod.mk.injEq] at hc
    obtain ⟨hroot, _⟩ := hc
    subst hroot
    refine WFTree.mk _ ?_ ?_ ?_
    · simp only [SNode.pairs]
      exact buildPairs_wf _ hsort
    · simp only [SNode.pairs, SNode.subs, fixupL_eq_map, List.length_map]
      rw [buildPairs_length, List.length_map, buildTopKids_length]
    · intro c hcm
      simp only [SNode.subs, fixupL_eq_map, List.mem_map] at hcm
      obtain ⟨x, hx, rfl⟩ := hcm
      exact fixupN_wf _ x (buildTopKids_wf_of cs hspec _ x hx)
  · rw [if_neg hd] at hc
    cases hc

/-! ### Path resolution of compiled trees (getElement vs buildNames) -/

/-- Schema with a single top-level array of eleven booleans. -/
def arrSchema11 : List (Name × SpecT) :=
  [([97], .arr (List.replicate 11 (.prim .tBool none (some (.bv false)))))]

/-- The compiled root of `arrSchema11`. -/
def arr11Root : SNode := ((compileSchema arrSchema11).getD (nodeDefault, 0)).1

/-- The eleventh array child, named "10". -/
def arr11Node10 : SNode :=
  (arr11Root.subs.getD 0 nodeDefault).subs.getD 10 nodeDefault

/-- C7 fails on the code as stated: buildArrayNames names array
children in counting order, so an array with eleven children stores
"10" after "9" where the table is no longer alphabetically sorted;
getElement's early-abort comparison (`key[j] > path[j]` returns NULL)
then abandons the scan at entry "2" before ever reaching "10".  The
node for index 10 is present in the compiled tree and its stored path
is "a.10", yet resolving that path from the root returns null. -/
theorem array_index_ten_counterexample :
    compileSchema arrSchema11 = some (arr11Root, 131) ∧
    arr11Node10.name = [49, 48] ∧
    Reach arr11Root [[97], [49, 48]] arr11Node10 ∧
    getElementL [[97], [49, 48]] arr11Root = none := by
  refine ⟨rfl, rfl, ?_, rfl⟩
  exact Reach.step arr11Root 0 (by decide) (by decide) [[49, 48]] arr11Node10
    (Reach.step _ 10 (by decide) (by decide) [] arr11Node10 (Reach.here _))

/-- C7 amended: on any schema whose unit children are key-sorted and
whose arrays have at most ten children (so the counting-order names of
buildArrayNames are also alphabetically sorted), every node reachable
in the compiled tree is returned by resolving its stored path of full
names from the root. -/
theorem compiled_path_resolution_amended (cs : List (Name × SpecT))
    (root : SNode) (S : ℕ)
    (hsort : List.Pairwise nameLt (cs.map Prod.fst))
    (hspec : ∀ x ∈ cs, WFSpec x.2)
    (hc : compileSchema cs = some (root, S))
    (segs : List Name) (tgt : SNode)
    (hr : Reach root segs tgt) (hne : segs ≠ []) :
    getElementL segs root = some tgt :=
  reach_resolves segs root tgt (compileSchema_wf cs root S hsort hspec hc)
    hr hne

/-- Schema with a single top-level boolean named "a". -/
def w7cs : List (Name × SpecT) := [([97], .prim .tBool none (some (.bv false)))]

/-- The compiled root of `w7cs`. -/
def w7Root : SNode := ((compileSchema w7cs).getD (nodeDefault, 0)).1

/-- Its boolean child. -/
def w7Child : SNode := w7Root.subs.getD 0 nodeDefault

theorem compiled_path_resolution_amended_witness :
    getElementL [[97]] w7Root = some w7Child :=
  compiled_path_resolution_amended w7cs w7Root 41 (by simp [w7cs])
    (by
      intro x hx
      simp only [w7cs, List.mem_singleton] at hx
      subst hx
      exact WFSpec.prim _ _ _)
    rfl [[97]] w7Child
    (Reach.step w7Root 0 (by decide) (by decide) [] w7Child (Reach.here _))
    (by simp)

/-! ### What a path segment is allowed to match -/

theorem getElementL_single (seg : Name) (base : SNode) :
    getElementL [seg] base =
      match scanEnts seg 0 (base.pairs.zip base.subs) with
      | none => none
      | some child => some child := rfl

/-- Schema with a single top-level boolean named "position". -/
def posSchema : List (Name × SpecT) :=
  [([112, 111, 115, 105, 116, 105, 111, 110],
    .prim .tBool none (some (.bv false)))]

/-- The bytes of "position". -/
def posFull : Name := [112, 111, 115, 105, 116, 105, 111, 110]

/-- The compiled root of `posSchema`. -/
def posRoot : SNode := ((compileSchema posSchema).getD (nodeDefault, 0)).1

/-- Its boolean child. -/
def posChild : SNode := posRoot.subs.getD 0 nodeDefault

/-- C8 fails on the code as stated: the compiled table for the sole
child "position" stores the minimal key "p", but looking up the
unambiguous abbreviation "pos" returns null — after the key matches,
getElement insists that the segment's length and bytes equal the FULL
stored name, so only the exact name "position" resolves. -/
theorem abbreviation_lookup_counterexample :
    posRoot.pairs = [([112], posFull)] ∧
    getElementL [[112, 111, 115]] posRoot = none ∧
    getElementL [posFull] posRoot = some posChild :=
  ⟨rfl, rfl, rfl⟩

/-- C8 amended: the stored key acts only as a scan filter, never as an
accepted spelling: whenever a path segment resolves to a child of a
composite, the child's stored full name equals the segment exactly
(hence no proper abbreviation, unambiguous or not, ever resolves). -/
theorem segment_lookup_exact_name_amended (base : SNode) (seg : Name)
    (c : SNode) (h : getElementL [seg] base = some c) :
    ∃ key, ((key, seg), c) ∈ base.pairs.zip base.subs := by
  rw [getElementL_single] at h
  cases hscan : scanEnts seg 0 (base.pairs.zip base.subs) with
  | none =>
    rw [hscan] at h
    cases h
  | some ch =>
    rw [hscan] at h
    have hc : ch = c := by injection h
    subst hc
    exact scanEnts_sound _ seg 0 _ hscan

theorem segment_lookup_exact_name_amended_witness :
    ∃ key, ((key, posFull), posChild) ∈ posRoot.pairs.zip posRoot.subs :=
  segment_lookup_exact_name_amended posRoot posFull posChild rfl
